import Mathlib

/-!
Block-row parallel Floyd all-pairs shortest paths: a shallow embedding of
`src/floyd_parallel.c`.

* A C `int` array is a `List Int`; the read `a[i]` is `a.getD i 0` and the write
  `a[i] = v` is `a.set i v`.  Subscripts and sizes are natural numbers.
* The C `int` sum in the relaxation is `addInt`, addition followed by reduction to the
  32-bit two's-complement range.
* The `p` MPI processes run the same code in lock step, so the state of the program is
  the list of the per-rank states, indexed by rank; a collective (`MPI_Scatter`,
  `MPI_Gather`, `MPI_Bcast`) is a function on that list.
* A `for` loop over `0 .. n-1` is a left fold over `List.range n`.
* A step that stops the program gives `none`: the integer division by zero in
  `int_city / (n/p)`, and a broadcast whose root is not a rank of the communicator, which the
  MPI library rejects (the default error handler aborts all ranks).
-/

namespace FloydParallel

/-! ## Definitions embedded from the source -/

/-- `const int INFINITY = 1000000;` -/
def INFINITY : Int := 1000000

/-- Reduction of an integer to the range of a 32-bit signed `int`. -/
def wrapInt (x : Int) : Int := (x + 2147483648) % 4294967296 - 2147483648

/-- The C expression `x + y` on two `int`s. -/
def addInt (x y : Int) : Int := wrapInt (x + y)

/-- `int min(int x, int y)`: `if (x >= y) return y; else return x;` -/
def min (x y : Int) : Int := if x ≥ y then y else x

/-- `MPI_Scatter(sendbuf, count, ..., recvbuf, count, ..., 0, comm)` on `p` ranks: rank `r`
receives the `count` values of `sendbuf` that start at offset `r * count`. -/
def MPI_Scatter (sendbuf : List Int) (count p : Nat) : List (List Int) :=
  (List.range p).map (fun r => (sendbuf.drop (r * count)).take count)

/-- `MPI_Gather(sendbuf, count, ..., recvbuf, count, ..., 0, comm)`: the root receives the
first `count` values of every rank's buffer, the values of rank `r` at offset `r * count`. -/
def MPI_Gather (sendbufs : List (List Int)) (count : Nat) : List Int :=
  (sendbufs.map (fun b => b.take count)).flatten

/-- `Read_matrix`: rank 0 holds the `n * n` values read from the input in `temp_mat` and
scatters them, `n*n/p` values to each rank.  The result is the list of the `local_mat`s. -/
def Read_matrix (n p : Nat) (temp_mat : List Int) : List (List Int) :=
  MPI_Scatter temp_mat (n * n / p) p

/-- `Print_matrix`, up to the printing: the `temp_mat` that rank 0 holds after the gather of
`n*n/p` values from each rank. -/
def Print_matrix (n p : Nat) (local_mats : List (List Int)) : List Int :=
  MPI_Gather local_mats (n * n / p)

/-- The state of one rank inside `Floyd`: its block and its pivot-row buffer. -/
structure Proc where
  local_mat : List Int
  row_int_city : List Int
deriving DecidableEq

/-- The owner of the pivot row, `root = int_city / (n/p)`. -/
def root (n p int_city : Nat) : Nat := int_city / (n / p)

/-- The part of one iteration of `Floyd` before the broadcast, on rank `my_rank`:
`if (my_rank == root) { local_int_city = int_city % (n/p);
   for (j = 0; j < n; j++) row_int_city[j] = local_mat[local_int_city*n + j]; }` -/
def copyPivotRow (n p int_city my_rank : Nat) (pr : Proc) : Proc :=
  if my_rank = root n p int_city then
    let local_int_city := int_city % (n / p)
    { pr with
      row_int_city :=
        (List.range n).foldl
          (fun row j => row.set j (pr.local_mat.getD (local_int_city * n + j) 0))
          pr.row_int_city }
  else pr

/-- `MPI_Bcast(row_int_city, count, MPI_INT, root, comm)`: the first `count` values of the
buffer of rank `root` overwrite the first `count` values of every rank's buffer.  When `root`
is not a rank of the communicator the library reports an invalid root and the program is
aborted: the result is `none`. -/
def MPI_Bcast (procs : List Proc) (count root : Nat) : Option (List Proc) :=
  match procs.get? root with
  | some src =>
      some (procs.map (fun pr =>
        { pr with row_int_city := src.row_int_city.take count ++ pr.row_int_city.drop count }))
  | none => none

/-- The loop over `city2` for one local row:
`for (city2 = 0; city2 < n; city2++)
   local_mat[local_city1*n + city2] =
     min(local_mat[local_city1*n + city2],
         local_mat[local_city1*n + int_city] + row_int_city[city2]);` -/
def relaxRow (n int_city : Nat) (row_int_city : List Int) (local_city1 : Nat)
    (local_mat : List Int) : List Int :=
  (List.range n).foldl
    (fun lm city2 =>
      lm.set (local_city1 * n + city2)
        (min (lm.getD (local_city1 * n + city2) 0)
          (addInt (lm.getD (local_city1 * n + int_city) 0) (row_int_city.getD city2 0))))
    local_mat

/-- The relaxation of one rank's block for the pivot `int_city`:
`for (local_city1 = 0; local_city1 < n/p; local_city1++) ...` -/
def relax (n p int_city : Nat) (row_int_city : List Int) (local_mat : List Int) : List Int :=
  (List.range (n / p)).foldl
    (fun lm local_city1 => relaxRow n int_city row_int_city local_city1 lm)
    local_mat

/-- The first half of one iteration of the loop over `int_city` in `Floyd`, on all ranks:
`root = int_city / (n/p)`, which stops the program with a division by zero when `n/p` is 0;
the owner copies the pivot row; then `MPI_Bcast(row_int_city, n, MPI_INT, root, comm)`, which
aborts the program when `root` is not a rank. -/
def Floyd_bcast (n p int_city : Nat) (procs : List Proc) : Option (List Proc) :=
  if n / p = 0 then none
  else
    MPI_Bcast (procs.mapIdx (fun my_rank pr => copyPivotRow n p int_city my_rank pr)) n
      (root n p int_city)

/-- One iteration of the loop over `int_city` in `Floyd`, on all ranks: the pivot row is
copied and broadcast, then every rank relaxes its block against the row it holds.  The result
is `none` when the first half stops the program. -/
def Floyd_iter (n p int_city : Nat) (procs : List Proc) : Option (List Proc) :=
  (Floyd_bcast n p int_city procs).map (fun received =>
    received.map (fun pr =>
      { pr with local_mat := relax n p int_city pr.row_int_city pr.local_mat }))

/-- The ranks on entry to `Floyd`: `row_int_city = malloc(n*sizeof(int))`, a buffer of `n`
values (taken as zeros; each is written before it is read). -/
def Floyd_init (n : Nat) (local_mats : List (List Int)) : List Proc :=
  local_mats.map (fun lm => { local_mat := lm, row_int_city := List.replicate n 0 })

/-- The ranks after the iterations for the pivots `0 .. m-1`, `none` when one of them stops
the program. -/
def Floyd_rounds (n p m : Nat) (local_mats : List (List Int)) : Option (List Proc) :=
  (List.range m).foldlM (fun procs int_city => Floyd_iter n p int_city procs)
    (Floyd_init n local_mats)

/-- `Floyd` on all ranks: `for (int_city = 0; int_city < n; int_city++) ...`; the result is
the list of the `local_mat`s, `none` when an iteration stops the program. -/
def Floyd (n p : Nat) (local_mats : List (List Int)) : Option (List (List Int)) :=
  (Floyd_rounds n p n local_mats).map (fun procs => procs.map Proc.local_mat)

/-- The program `main` on `p` ranks, from the `n * n` values read to the matrix gathered on
rank 0: `Read_matrix; Floyd; Print_matrix`.  The result is `none` when the program is stopped
inside `Floyd`, so that `Print_matrix` is never reached. -/
def run (n p : Nat) (input : List Int) : Option (List Int) :=
  (Floyd n p (Read_matrix n p input)).map (fun local_mats => Print_matrix n p local_mats)

/-- The C expression `x * y` on two `int`s. -/
def mulInt (x y : Int) : Int := wrapInt (x * y)

/-- The C expression `x / y` on two `int`s, for `y ≠ 0`: the quotient truncated toward
zero. -/
def divInt (x y : Int) : Int := wrapInt (Int.tdiv x y)

/-- The C expression `x % y` on two `int`s, for `y ≠ 0`. -/
def modInt (x y : Int) : Int := wrapInt (Int.tmod x y)

/-- The size `n*n/p` as the program computes it in `malloc(n*n/p*sizeof(int))` and in the
counts of `MPI_Scatter` and `MPI_Gather`. -/
def blockCountInt (n p : Int) : Int := divInt (mulInt n n) p

/-- The subscript `r*n + j` as the program computes it. -/
def subscriptInt (r n j : Int) : Int := addInt (mulInt r n) j

/-- The owner `int_city / (n/p)` as the program computes it. -/
def rootInt (n p int_city : Int) : Int := divInt int_city (divInt n p)

/-- The local pivot row `int_city % (n / p)` as the program computes it. -/
def localPivotInt (n p int_city : Int) : Int := modInt int_city (divInt n p)

/-- Entry `(i, j)` of an `n × n` matrix stored row by row: `mat[i*n + j]`. -/
def entry (n : Nat) (mat : List Int) (i j : Nat) : Int := mat.getD (i * n + j) 0

/-- The global matrix held by the ranks: the blocks in rank order. -/
def globalMat (procs : List Proc) : List Int := (procs.map Proc.local_mat).flatten

/-! ## Specification-side definitions -/

/-- The value that the loop over `city2` reads from `local_mat[r*n + k]` when it is at column
`j`: the value from before the loop up to column `k`, the value written at column `k` after
it. -/
def pivotCol (n k : Nat) (row lm : List Int) (r j : Nat) : Int :=
  if j ≤ k then lm.getD (r * n + k) 0
  else min (lm.getD (r * n + k) 0) (addInt (lm.getD (r * n + k) 0) (row.getD k 0))

/-- The value that the loop over `city2` writes at column `j` of local row `r`, in terms of
the block `lm` from before the loop. -/
def relaxedEntry (n k : Nat) (row lm : List Int) (r j : Nat) : Int :=
  min (lm.getD (r * n + j) 0) (addInt (pivotCol n k row lm r j) (row.getD j 0))

/-- Row `l` of a matrix with rows of length `n`, as a list of `n` values. -/
def rowOf (n : Nat) (mat : List Int) (l : Nat) : List Int :=
  (List.range n).map (fun j => mat.getD (l * n + j) 0)

/-- The ranks are well formed for `n` and `p`: there are `p` of them, each with a block of
`n/p` rows of `n` values (`malloc(n*n/p*sizeof(int))` when `p` divides `n`) and a pivot-row
buffer of `n` values. -/
def WellFormed (n p : Nat) (procs : List Proc) : Prop :=
  procs.length = p ∧
  ∀ pr ∈ procs, pr.local_mat.length = n / p * n ∧ pr.row_int_city.length = n

instance (n p : Nat) (procs : List Proc) : Decidable (WellFormed n p procs) := by
  unfold WellFormed
  infer_instance

/-- One iteration of `Floyd` seen on the global matrix `g`: entry `(i, j)` becomes
`relaxedEntry` of row `i`, with row `k` of `g` as the pivot row. -/
def globalStep (n k : Nat) (g : List Int) : List Int :=
  (List.range (n * n)).map (fun idx => relaxedEntry n k (rowOf n g k) g (idx / n) (idx % n))

/-- The global matrix after the iterations for the pivots `0 .. m-1`. -/
def globalRounds (n m : Nat) (g : List Int) : List Int :=
  (List.range m).foldl (fun g k => globalStep n k g) g

/-- A valid input matrix: `n * n` values, zeroes on the main diagonal, every entry
nonnegative and at most `INFINITY`. -/
def Valid (n : Nat) (mat : List Int) : Prop :=
  mat.length = n * n ∧
  (∀ i, i < n → entry n mat i i = 0) ∧
  (∀ i, i < n → ∀ j, j < n → 0 ≤ entry n mat i j ∧ entry n mat i j ≤ INFINITY)

instance (n : Nat) (mat : List Int) : Decidable (Valid n mat) := by
  unfold Valid
  infer_instance

/-- The sum of the weights `w v_t v_(t+1)` along the vertex sequence `v_0, v_1, ..., v_m`. -/
def seqCost (w : Nat → Nat → Int) : List Nat → Int
  | [] => 0
  | [_] => 0
  | u :: v :: rest => w u v + seqCost w (v :: rest)

/-- The cost of going from `i` to `j` through the vertices `mids`, in order. -/
def pathCost (w : Nat → Nat → Int) : Nat → List Nat → Nat → Int
  | i, [], j => w i j
  | i, v :: vs, j => w i v + pathCost w v vs j

/-- The list `vs` is a vertex sequence `i = v_0, v_1, ..., v_m = j` (`m ≥ 0`) of a graph on the
vertices `0 .. n-1`. -/
def IsSeq (n i j : Nat) (vs : List Nat) : Prop :=
  vs.head? = some i ∧ vs.getLast? = some j ∧ ∀ v ∈ vs, v < n

instance (n i j : Nat) (vs : List Nat) : Decidable (IsSeq n i j vs) := by
  unfold IsSeq
  infer_instance

/-- The intermediate vertices `v_1, ..., v_(m-1)` of a vertex sequence. -/
def inner (vs : List Nat) : List Nat := vs.tail.dropLast

/-- The body of the sequential triple loop: `d[i*n+j] = min(d[i*n+j], d[i*n+k] + d[k*n+j])`. -/
def seqCell (n k i : Nat) (d : List Int) (j : Nat) : List Int :=
  d.set (i * n + j) (Min.min (d.getD (i * n + j) 0) (d.getD (i * n + k) 0 + d.getD (k * n + j) 0))

/-- The loop `for j` of the sequential triple loop. -/
def seqRow (n k : Nat) (d : List Int) (i : Nat) : List Int :=
  (List.range n).foldl (seqCell n k i) d

/-- The loop `for i` of the sequential triple loop. -/
def seqRound (n : Nat) (d : List Int) (k : Nat) : List Int :=
  (List.range n).foldl (seqRow n k) d

/-- The sequential Floyd-Warshall triple loop on a flat array, in place:
`for k, for i, for j: d[i*n+j] = min(d[i*n+j], d[i*n+k] + d[k*n+j])`. -/
def seqFloydWarshall (n : Nat) (d : List Int) : List Int :=
  (List.range n).foldl (seqRound n) d

/-- Every entry `(i, j)` of `g` is the least cost, for the weights `w`, of a route from `i` to
`j` whose intermediate vertices are all below `k`: some such route has that cost and none has
a smaller one. -/
def ShortestBelow (n : Nat) (w : Nat → Nat → Int) (k : Nat) (g : List Int) : Prop :=
  ∀ i, i < n → ∀ j, j < n →
    (∃ mids, (∀ v ∈ mids, v < k) ∧ pathCost w i mids j = entry n g i j) ∧
    (∀ mids, (∀ v ∈ mids, v < k) → entry n g i j ≤ pathCost w i mids j)

/-- The adjacency matrix of the concrete scenario: `n = 4`, edges `0→1` of weight 2, `1→2` of
weight 3, `2→3` of weight 1, zero diagonal, `INFINITY` everywhere else. -/
def exampleMatrix : List Int :=
  [0, 2, 1000000, 1000000,
   1000000, 0, 3, 1000000,
   1000000, 1000000, 0, 1,
   1000000, 1000000, 1000000, 0]

/-- A matrix of `n * n` values with every entry nonnegative and at most `B`. -/
def Bounded (n : Nat) (B : Int) (mat : List Int) : Prop :=
  mat.length = n * n ∧
  ∀ i, i < n → ∀ j, j < n → 0 ≤ entry n mat i j ∧ entry n mat i j ≤ B

instance (n : Nat) (B : Int) (mat : List Int) : Decidable (Bounded n B mat) := by
  unfold Bounded
  infer_instance

/-- Every value of the array `l` is nonnegative and at most `B`. -/
def AllInRange (B : Int) (l : List Int) : Prop :=
  ∀ idx, idx < l.length → 0 ≤ l.getD idx 0 ∧ l.getD idx 0 ≤ B

instance (B : Int) (l : List Int) : Decidable (AllInRange B l) := by
  unfold AllInRange
  infer_instance

/-- The vertex sequence `vs` is made only of entries below `INFINITY`: every step
`v_t → v_(t+1)` has a weight `w v_t v_(t+1)` below `INFINITY`. -/
def FinitePath (w : Nat → Nat → Int) (vs : List Nat) : Prop :=
  List.Chain' (fun u v => w u v < INFINITY) vs

instance (w : Nat → Nat → Int) (vs : List Nat) : Decidable (FinitePath w vs) := by
  unfold FinitePath
  infer_instance

/-- What `Print_matrix` prints for one entry: the marker `i` or the number. -/
inductive Printed where
  | marker : Printed
  | number : Int → Printed
deriving DecidableEq

/-- The printing of one entry in `Print_matrix`:
`if (temp_mat[i*n+j] == INFINITY) printf("i "); else printf("%d ", temp_mat[i*n+j]);` -/
def Print_entry (x : Int) : Printed :=
  if x = INFINITY then Printed.marker else Printed.number x

set_option linter.unusedVariables false

/-! ## Reading and writing arrays -/

theorem getD_set_self (l : List Int) (i : Nat) (a d : Int) (h : i < l.length) :
    (l.set i a).getD i d = a := by
  rw [List.getD_eq_getElem?_getD, List.getElem?_set, if_pos rfl, if_pos h]
  rfl

theorem getD_set_ne (l : List Int) (i j : Nat) (a d : Int) (h : i ≠ j) :
    (l.set i a).getD j d = l.getD j d := by
  rw [List.getD_eq_getElem?_getD, List.getElem?_set, if_neg h, List.getD_eq_getElem?_getD]

/-- Two arrays of the same length with the same reads are equal. -/
theorem ext_getD (l₁ l₂ : List Int) (hlen : l₁.length = l₂.length)
    (h : ∀ i, i < l₁.length → l₁.getD i 0 = l₂.getD i 0) : l₁ = l₂ := by
  apply List.ext_getElem hlen
  intro i h1 h2
  have := h i h1
  rwa [List.getD_eq_getElem _ _ h1, List.getD_eq_getElem _ _ h2] at this

/-! ## Machine addition -/

theorem wrapInt_eq (x : Int) (h1 : -2147483648 ≤ x) (h2 : x < 2147483648) : wrapInt x = x := by
  unfold wrapInt
  omega

theorem addInt_eq (x y : Int) (h1 : -2147483648 ≤ x + y) (h2 : x + y < 2147483648) :
    addInt x y = x + y := wrapInt_eq _ h1 h2

theorem min_eq_min (x y : Int) : FloydParallel.min x y = Min.min x y := by
  unfold FloydParallel.min
  split <;> omega

/-! ## The loop over `city2` -/

theorem relaxRow_loop (n k : Nat) (row lm : List Int) (r : Nat)
    (hlen : r * n + n ≤ lm.length) (c : Nat) (hc : c ≤ n) :
    ((List.range c).foldl
        (fun lm city2 =>
          lm.set (r * n + city2)
            (min (lm.getD (r * n + city2) 0)
              (addInt (lm.getD (r * n + k) 0) (row.getD city2 0)))) lm).length = lm.length ∧
    (∀ j, j < c → ((List.range c).foldl
        (fun lm city2 =>
          lm.set (r * n + city2)
            (min (lm.getD (r * n + city2) 0)
              (addInt (lm.getD (r * n + k) 0) (row.getD city2 0)))) lm).getD (r * n + j) 0 =
        relaxedEntry n k row lm r j) ∧
    (∀ idx, idx < r * n ∨ r * n + c ≤ idx → ((List.range c).foldl
        (fun lm city2 =>
          lm.set (r * n + city2)
            (min (lm.getD (r * n + city2) 0)
              (addInt (lm.getD (r * n + k) 0) (row.getD city2 0)))) lm).getD idx 0 =
        lm.getD idx 0) := by
  induction c with
  | zero =>
    refine ⟨rfl, ?_, ?_⟩
    · intro j hj; omega
    · intro idx _; rfl
  | succ c ih =>
    obtain ⟨ihl, ihb, ihc⟩ := ih (by omega)
    rw [List.range_succ, List.foldl_append]
    simp only [List.foldl_cons, List.foldl_nil]
    refine ⟨by rw [List.length_set, ihl], ?_, ?_⟩
    · intro j hj
      by_cases hjc : j = c
      · subst hjc
        rw [getD_set_self _ _ _ _ (by rw [ihl]; omega), ihc (r * n + j) (by omega)]
        unfold relaxedEntry
        congr 2
        unfold pivotCol
        by_cases hkj : j ≤ k
        · rw [if_pos hkj, ihc (r * n + k) (by omega)]
        · rw [if_neg hkj, ihb k (by omega)]
          unfold relaxedEntry pivotCol
          rw [if_pos (le_refl k)]
      · rw [getD_set_ne _ _ _ _ _ (by omega), ihb j (by omega)]
    · intro idx hidx
      rw [getD_set_ne _ _ _ _ _ (by omega), ihc idx (by omega)]

/-- The loop over `city2` on local row `r` keeps the length of the block, writes
`relaxedEntry` at every column of row `r`, and leaves every other entry as it was. -/
theorem relaxRow_spec (n k : Nat) (row lm : List Int) (r : Nat)
    (hlen : r * n + n ≤ lm.length) :
    (relaxRow n k row r lm).length = lm.length ∧
    (∀ j, j < n → (relaxRow n k row r lm).getD (r * n + j) 0 = relaxedEntry n k row lm r j) ∧
    (∀ idx, idx < r * n ∨ r * n + n ≤ idx →
      (relaxRow n k row r lm).getD idx 0 = lm.getD idx 0) :=
  relaxRow_loop n k row lm r hlen n (le_refl n)

/-! ## The loop over `local_city1` -/

theorem row_end_le (r t n : Nat) (h : r < t) : r * n + n ≤ t * n := by
  have := Nat.mul_le_mul_right n (Nat.succ_le_of_lt h)
  rwa [Nat.succ_mul] at this

theorem relaxedEntry_congr (n k : Nat) (row lm lm2 : List Int) (r j : Nat)
    (hj : lm2.getD (r * n + j) 0 = lm.getD (r * n + j) 0)
    (hk : lm2.getD (r * n + k) 0 = lm.getD (r * n + k) 0) :
    relaxedEntry n k row lm2 r j = relaxedEntry n k row lm r j := by
  unfold relaxedEntry pivotCol
  rw [hj, hk]

theorem relax_loop (n k : Nat) (row lm : List Int) (b : Nat)
    (hlen : lm.length = b * n) (t : Nat) (ht : t ≤ b) :
    ((List.range t).foldl (fun lm local_city1 => relaxRow n k row local_city1 lm) lm).length
      = lm.length ∧
    (∀ r j, r < t → j < n →
      ((List.range t).foldl (fun lm local_city1 => relaxRow n k row local_city1 lm) lm).getD
        (r * n + j) 0 = relaxedEntry n k row lm r j) ∧
    (∀ idx, t * n ≤ idx →
      ((List.range t).foldl (fun lm local_city1 => relaxRow n k row local_city1 lm) lm).getD
        idx 0 = lm.getD idx 0) := by
  induction t with
  | zero =>
    refine ⟨rfl, ?_, ?_⟩
    · intro r j hr; omega
    · intro idx _; rfl
  | succ t ih =>
    obtain ⟨ihl, ihb, ihc⟩ := ih (by omega)
    rw [List.range_succ, List.foldl_append]
    simp only [List.foldl_cons, List.foldl_nil]
    have hrow : t * n + n ≤ b * n := row_end_le t b n (by omega)
    obtain ⟨sl, sb, sc⟩ := relaxRow_spec n k row
      ((List.range t).foldl (fun lm local_city1 => relaxRow n k row local_city1 lm) lm) t
      (by rw [ihl, hlen]; exact hrow)
    refine ⟨by rw [sl, ihl], ?_, ?_⟩
    · intro r j hr hj
      by_cases hrt : r = t
      · subst hrt
        rw [sb j hj]
        exact relaxedEntry_congr n k row lm _ r j (ihc _ (by omega)) (ihc _ (by omega))
      · have := row_end_le r t n (by omega)
        rw [sc (r * n + j) (by omega), ihb r j (by omega) hj]
    · intro idx hidx
      rw [Nat.succ_mul] at hidx
      rw [sc idx (by omega), ihc idx (by omega)]

/-- The relaxation of a block of `n/p` rows keeps its length and writes `relaxedEntry` at
every entry. -/
theorem relax_spec (n p k : Nat) (row lm : List Int) (hlen : lm.length = n / p * n) :
    (relax n p k row lm).length = lm.length ∧
    ∀ r j, r < n / p → j < n →
      (relax n p k row lm).getD (r * n + j) 0 = relaxedEntry n k row lm r j :=
  ⟨(relax_loop n k row lm (n / p) hlen (n / p) (le_refl _)).1,
   (relax_loop n k row lm (n / p) hlen (n / p) (le_refl _)).2.1⟩

/-! ## The pivot row -/

theorem rowOf_length (n : Nat) (mat : List Int) (l : Nat) : (rowOf n mat l).length = n := by
  simp [rowOf]

theorem rowOf_getD (n : Nat) (mat : List Int) (l j : Nat) (hj : j < n) :
    (rowOf n mat l).getD j 0 = mat.getD (l * n + j) 0 := by
  unfold rowOf
  rw [List.getD_eq_getElem _ _ (by simpa using hj)]
  simp

theorem copy_loop (n : Nat) (lm row : List Int) (l : Nat) (hrow : row.length = n)
    (c : Nat) (hc : c ≤ n) :
    ((List.range c).foldl (fun row j => row.set j (lm.getD (l * n + j) 0)) row).length = n ∧
    (∀ j, j < c →
      ((List.range c).foldl (fun row j => row.set j (lm.getD (l * n + j) 0)) row).getD j 0
        = lm.getD (l * n + j) 0) := by
  induction c with
  | zero => exact ⟨hrow, fun j hj => by omega⟩
  | succ c ih =>
    obtain ⟨ihl, ihb⟩ := ih (by omega)
    rw [List.range_succ, List.foldl_append]
    simp only [List.foldl_cons, List.foldl_nil]
    refine ⟨by rw [List.length_set, ihl], ?_⟩
    intro j hj
    by_cases hjc : j = c
    · subst hjc
      rw [getD_set_self _ _ _ _ (by rw [ihl]; omega)]
    · rw [getD_set_ne _ _ _ _ _ (by omega), ihb j (by omega)]

/-- The copy loop of the owner fills a buffer of `n` values with local row `l`. -/
theorem copy_eq_rowOf (n : Nat) (lm row : List Int) (l : Nat) (hrow : row.length = n) :
    (List.range n).foldl (fun row j => row.set j (lm.getD (l * n + j) 0)) row = rowOf n lm l := by
  obtain ⟨hl, hv⟩ := copy_loop n lm row l hrow n (le_refl n)
  apply ext_getD _ _ (by rw [hl, rowOf_length])
  intro i hi
  rw [hl] at hi
  rw [hv i hi, rowOf_getD n lm l i hi]

theorem copyPivotRow_local_mat (n p k rk : Nat) (pr : Proc) :
    (copyPivotRow n p k rk pr).local_mat = pr.local_mat := by
  unfold copyPivotRow
  split <;> rfl

theorem copyPivotRow_row_length (n p k rk : Nat) (pr : Proc) (h : pr.row_int_city.length = n) :
    (copyPivotRow n p k rk pr).row_int_city.length = n := by
  unfold copyPivotRow
  split
  · simp only
    rw [copy_eq_rowOf n _ _ _ h, rowOf_length]
  · exact h

theorem copyPivotRow_root (n p k : Nat) (pr : Proc) (h : pr.row_int_city.length = n) :
    (copyPivotRow n p k (root n p k) pr).row_int_city = rowOf n pr.local_mat (k % (n / p)) := by
  unfold copyPivotRow
  rw [if_pos rfl]
  simp only
  rw [copy_eq_rowOf n _ _ _ h]

/-! ## One iteration on all ranks -/

/-- After the copy and the broadcast on well-formed ranks, when the block size is not zero and
the owner is a rank, the program goes on, every rank holds the owner's local row
`k % (n/p)` and its block is as before. -/
theorem Floyd_bcast_eq (n p k : Nat) (procs : List Proc) (hwf : WellFormed n p procs)
    (hb : 0 < n / p) (src : Proc) (hsrc : procs[root n p k]? = some src) :
    Floyd_bcast n p k procs =
      some (procs.map (fun pr =>
        { local_mat := pr.local_mat,
          row_int_city := rowOf n src.local_mat (k % (n / p)) })) := by
  obtain ⟨_, hall⟩ := hwf
  have hsrcmem : src ∈ procs := List.getElem?_mem hsrc
  have hcop : (procs.mapIdx (fun my_rank pr => copyPivotRow n p k my_rank pr))[root n p k]? =
      some (copyPivotRow n p k (root n p k) src) := by
    rw [List.getElem?_mapIdx, hsrc]; rfl
  unfold Floyd_bcast MPI_Bcast
  rw [if_neg (by omega)]
  simp only [List.get?_eq_getElem?, hcop]
  congr 1
  apply List.ext_getElem?
  intro i
  simp only [List.getElem?_map, List.getElem?_mapIdx]
  cases hi : procs[i]? with
  | none => simp
  | some pr =>
    have hprmem : pr ∈ procs := List.getElem?_mem hi
    have h1 : (copyPivotRow n p k (root n p k) src).row_int_city.take n
        ++ (copyPivotRow n p k i pr).row_int_city.drop n
        = rowOf n src.local_mat (k % (n / p)) := by
      rw [copyPivotRow_root n p k src (hall src hsrcmem).2,
        List.take_of_length_le (by rw [rowOf_length]),
        List.drop_of_length_le (by rw [copyPivotRow_row_length n p k i pr (hall pr hprmem).2]),
        List.append_nil]
    simp only [Option.map_some', h1, copyPivotRow_local_mat]

/-- One iteration of `Floyd` on well-formed ranks, when the block size is not zero and the
owner is a rank: the program goes on, every rank ends with the owner's local row
`k % (n/p)` in its buffer and with its block relaxed against that row. -/
theorem Floyd_iter_eq (n p k : Nat) (procs : List Proc) (hwf : WellFormed n p procs)
    (hb : 0 < n / p) (src : Proc) (hsrc : procs[root n p k]? = some src) :
    Floyd_iter n p k procs =
      some (procs.map (fun pr =>
        { local_mat := relax n p k (rowOf n src.local_mat (k % (n / p))) pr.local_mat,
          row_int_city := rowOf n src.local_mat (k % (n / p)) })) := by
  unfold Floyd_iter
  rw [Floyd_bcast_eq n p k procs hwf hb src hsrc, Option.map_some', List.map_map]
  rfl

/-- An iteration whose owner is not a rank stops the program. -/
theorem Floyd_bcast_invalid_root (n p k : Nat) (procs : List Proc)
    (hroot : procs.length ≤ root n p k) : Floyd_bcast n p k procs = none := by
  unfold Floyd_bcast MPI_Bcast
  split
  · rfl
  · have h : (procs.mapIdx (fun my_rank pr => copyPivotRow n p k my_rank pr)).get? (root n p k)
        = none := by
      rw [List.get?_eq_getElem?, List.getElem?_eq_none (by rw [List.length_mapIdx]; exact hroot)]
    rw [h]

/-- An iteration that goes on keeps the number of ranks. -/
theorem Floyd_iter_length (n p k : Nat) (procs procs2 : List Proc)
    (h : Floyd_iter n p k procs = some procs2) : procs2.length = procs.length := by
  unfold Floyd_iter Floyd_bcast MPI_Bcast at h
  split at h
  · simp at h
  · split at h
    · simp only [Option.map_some', Option.some.injEq] at h
      rw [← h]
      simp
    · simp at h

/-- An iteration with a nonzero block size whose owner is a rank goes on. -/
theorem Floyd_iter_isSome (n p k : Nat) (procs : List Proc) (hb : 0 < n / p)
    (hroot : root n p k < procs.length) : ∃ procs2, Floyd_iter n p k procs = some procs2 := by
  unfold Floyd_iter Floyd_bcast MPI_Bcast
  rw [if_neg (by omega)]
  have h : ∃ src, (procs.mapIdx (fun my_rank pr => copyPivotRow n p k my_rank pr)).get?
      (root n p k) = some src := by
    rw [List.get?_eq_getElem?]
    exact ⟨_, List.getElem?_eq_getElem (by rw [List.length_mapIdx]; exact hroot)⟩
  obtain ⟨src, hsrc⟩ := h
  rw [hsrc]
  exact ⟨_, rfl⟩

/-! ## Blocks and the global matrix -/

theorem flatten_length_uniform (L : List (List Int)) (c : Nat) (hL : ∀ l ∈ L, l.length = c) :
    L.flatten.length = L.length * c := by
  induction L with
  | nil => simp
  | cons l L ih =>
    rw [List.flatten_cons, List.length_append, ih (fun x hx => hL x (List.mem_cons_of_mem _ hx)),
      hL l (List.mem_cons_self _ _), List.length_cons, Nat.succ_mul, Nat.add_comm]

/-- Entry `t` of block `q` sits at offset `q * c + t` of the concatenation of blocks of `c`
values. -/
theorem flatten_getD (L : List (List Int)) (c : Nat) (hL : ∀ l ∈ L, l.length = c)
    (q t : Nat) (ht : t < c) :
    L.flatten.getD (q * c + t) 0 = (L.getD q []).getD t 0 := by
  induction L generalizing q with
  | nil => simp
  | cons l L ih =>
    have hl : l.length = c := hL l (List.mem_cons_self _ _)
    rw [List.flatten_cons]
    cases q with
    | zero =>
      rw [List.getD_append _ _ _ _ (by omega)]
      simp
    | succ q =>
      rw [List.getD_append_right _ _ _ _ (by rw [hl, Nat.succ_mul]; omega)]
      have e : (q + 1) * c + t - l.length = q * c + t := by rw [hl, Nat.succ_mul]; omega
      rw [e, ih (fun x hx => hL x (List.mem_cons_of_mem _ hx)) q]
      simp

theorem index_split (n b i j : Nat) :
    i * n + j = i / b * (b * n) + (i % b * n + j) := by
  have h := Nat.div_add_mod i b
  calc i * n + j = (b * (i / b) + i % b) * n + j := by rw [h]
    _ = i / b * (b * n) + (i % b * n + j) := by ring

/-- Global entry `(i, j)` is local entry `(i % b, j)` of block `i / b`. -/
theorem blocks_getD (n b : Nat) (L : List (List Int)) (hL : ∀ l ∈ L, l.length = b * n)
    (hb : 0 < b) (i j : Nat) (hj : j < n) :
    L.flatten.getD (i * n + j) 0 = (L.getD (i / b) []).getD (i % b * n + j) 0 := by
  rw [index_split n b i j]
  apply flatten_getD L (b * n) hL
  have := row_end_le (i % b) b n (Nat.mod_lt i hb)
  omega

theorem cell_index (n idx : Nat) : idx / n * n + idx % n = idx := by
  rw [Nat.mul_comm]; exact Nat.div_add_mod idx n

theorem cell_row_lt (n idx : Nat) (h : idx < n * n) : idx / n < n :=
  Nat.div_lt_of_lt_mul h

theorem cell_col_lt (n idx : Nat) (h : idx < n * n) : idx % n < n := by
  apply Nat.mod_lt
  rcases Nat.eq_zero_or_pos n with h0 | h0
  · subst h0; simp at h
  · exact h0

theorem globalStep_length (n k : Nat) (g : List Int) : (globalStep n k g).length = n * n := by
  simp [globalStep]

theorem globalStep_getD (n k : Nat) (g : List Int) (i j : Nat) (hi : i < n) (hj : j < n) :
    (globalStep n k g).getD (i * n + j) 0 = relaxedEntry n k (rowOf n g k) g i j := by
  have hidx : i * n + j < n * n := by
    have := row_end_le i n n hi
    omega
  unfold globalStep
  rw [List.getD_eq_getElem _ _ (by simpa using hidx)]
  simp only [List.getElem_map, List.getElem_range]
  have e1 : (i * n + j) / n = i := by
    rw [Nat.add_comm, Nat.add_mul_div_right _ _ (by omega), Nat.div_eq_of_lt hj, Nat.zero_add]
  have e2 : (i * n + j) % n = j := by
    rw [Nat.add_comm, Nat.add_mul_mod_self_right, Nat.mod_eq_of_lt hj]
  rw [e1, e2]

theorem relaxedEntry_congr2 (n k : Nat) (row row2 lm lm2 : List Int) (r r2 j : Nat)
    (hj : lm2.getD (r2 * n + j) 0 = lm.getD (r * n + j) 0)
    (hk : lm2.getD (r2 * n + k) 0 = lm.getD (r * n + k) 0)
    (hrj : row2.getD j 0 = row.getD j 0) (hrk : row2.getD k 0 = row.getD k 0) :
    relaxedEntry n k row2 lm2 r2 j = relaxedEntry n k row lm r j := by
  unfold relaxedEntry pivotCol
  rw [hj, hk, hrj, hrk]

theorem root_lt (n p k : Nat) (hdiv : p ∣ n) (hk : k < n) : root n p k < p := by
  unfold root
  apply Nat.div_lt_of_lt_mul
  rw [Nat.div_mul_cancel hdiv]
  exact hk

theorem block_size_pos (n p : Nat) (hn : 0 < n) (hp : 0 < p) (hdiv : p ∣ n) : 0 < n / p :=
  Nat.div_pos (Nat.le_of_dvd hn hdiv) hp

theorem pos_of_dvd_of_lt (n p k : Nat) (hdiv : p ∣ n) (hk : k < n) : 0 < p := by
  rcases Nat.eq_zero_or_pos p with h0 | h0
  · subst h0
    have := Nat.eq_zero_of_zero_dvd hdiv
    omega
  · exact h0

theorem local_mats_uniform (n p : Nat) (procs : List Proc) (hwf : WellFormed n p procs) :
    ∀ l ∈ procs.map Proc.local_mat, l.length = n / p * n := by
  intro l hl
  obtain ⟨pr, hpr, rfl⟩ := List.mem_map.1 hl
  exact (hwf.2 pr hpr).1

theorem globalMat_length (n p : Nat) (hdiv : p ∣ n) (procs : List Proc)
    (hwf : WellFormed n p procs) : (globalMat procs).length = n * n := by
  unfold globalMat
  rw [flatten_length_uniform _ _ (local_mats_uniform n p procs hwf), List.length_map, hwf.1,
    ← Nat.mul_assoc, Nat.mul_comm p, Nat.div_mul_cancel hdiv]

/-- Global entry `(i, j)` read in the block of its owner. -/
theorem globalMat_getD (n p : Nat) (hn : 0 < n) (hp : 0 < p) (hdiv : p ∣ n) (procs : List Proc)
    (hwf : WellFormed n p procs) (i j : Nat) (hi : i < n) (hj : j < n) :
    ∃ pr, procs[i / (n / p)]? = some pr ∧
      (globalMat procs).getD (i * n + j) 0 = pr.local_mat.getD (i % (n / p) * n + j) 0 := by
  have hb := block_size_pos n p hn hp hdiv
  have hq : i / (n / p) < procs.length := by rw [hwf.1]; exact root_lt n p i hdiv hi
  refine ⟨procs[i / (n / p)], List.getElem?_eq_getElem hq, ?_⟩
  unfold globalMat
  rw [blocks_getD n (n / p) _ (local_mats_uniform n p procs hwf) hb i j hj]
  congr 1
  rw [List.getD_eq_getElem _ _ (by simpa using hq)]
  simp

/-- One iteration of `Floyd` on `p` ranks goes on, acts on the global matrix as `globalStep`,
whatever `p` is, and keeps the ranks well formed. -/
theorem Floyd_iter_global (n p k : Nat) (hdiv : p ∣ n) (hk : k < n) (procs : List Proc)
    (hwf : WellFormed n p procs) :
    ∃ procs2, Floyd_iter n p k procs = some procs2 ∧ WellFormed n p procs2 ∧
      globalMat procs2 = globalStep n k (globalMat procs) := by
  have hn : 0 < n := by omega
  have hp := pos_of_dvd_of_lt n p k hdiv hk
  have hb := block_size_pos n p hn hp hdiv
  have hroot : root n p k < procs.length := by rw [hwf.1]; exact root_lt n p k hdiv hk
  have hsrc : procs[root n p k]? = some procs[root n p k] := List.getElem?_eq_getElem hroot
  have hiter := Floyd_iter_eq n p k procs hwf hb _ hsrc
  refine ⟨_, hiter, ?_⟩
  generalize hp2 : procs.map (fun pr =>
      ({ local_mat := relax n p k (rowOf n (procs[root n p k]).local_mat (k % (n / p)))
          pr.local_mat,
         row_int_city := rowOf n (procs[root n p k]).local_mat (k % (n / p)) } : Proc))
    = procs2
  have hwf2 : WellFormed n p procs2 := by
    rw [← hp2]
    refine ⟨by rw [List.length_map, hwf.1], ?_⟩
    intro pr hpr
    obtain ⟨pr0, hpr0, rfl⟩ := List.mem_map.1 hpr
    exact ⟨by rw [(relax_spec n p k _ _ (hwf.2 pr0 hpr0).1).1, (hwf.2 pr0 hpr0).1],
      rowOf_length _ _ _⟩
  refine ⟨hwf2, ?_⟩
  -- the pivot row is global row `k`
  have hrow : ∀ j, j < n →
      (rowOf n (procs[root n p k]).local_mat (k % (n / p))).getD j 0 =
        (rowOf n (globalMat procs) k).getD j 0 := by
    intro j hj
    obtain ⟨pr, hpr, hv⟩ := globalMat_getD n p hn hp hdiv procs hwf k j hk hj
    have : pr = procs[root n p k] := by
      have h2 := hpr
      unfold root at hsrc
      rw [hsrc] at h2
      exact (Option.some.inj h2).symm
    rw [rowOf_getD _ _ _ _ hj, rowOf_getD _ _ _ _ hj, hv, this]
  apply ext_getD
  · rw [globalMat_length n p hdiv _ hwf2, globalStep_length]
  · intro idx hidx
    rw [globalMat_length n p hdiv _ hwf2] at hidx
    have hi := cell_row_lt n idx hidx
    have hj := cell_col_lt n idx hidx
    rw [← cell_index n idx, globalStep_getD n k _ _ _ hi hj]
    obtain ⟨pr2, hpr2, hv2⟩ := globalMat_getD n p hn hp hdiv _ hwf2 _ _ hi hj
    rw [hv2]
    rw [← hp2, List.getElem?_map] at hpr2
    cases hq : procs[idx / n / (n / p)]? with
    | none => rw [hq] at hpr2; simp at hpr2
    | some pr =>
      rw [hq] at hpr2
      have hpr2 := (Option.some.inj hpr2).symm
      subst hpr2
      simp only
      have hmem := List.getElem?_mem hq
      have hr : idx / n % (n / p) < n / p := Nat.mod_lt _ hb
      rw [(relax_spec n p k _ _ (hwf.2 pr hmem).1).2 _ _ hr hj]
      obtain ⟨pr3, hpr3, hv3⟩ := globalMat_getD n p hn hp hdiv procs hwf _ _ hi hj
      obtain ⟨pr4, hpr4, hv4⟩ := globalMat_getD n p hn hp hdiv procs hwf _ _ hi hk
      rw [hq] at hpr3 hpr4
      have e3 := (Option.some.inj hpr3); subst e3
      have e4 := (Option.some.inj hpr4); subst e4
      exact relaxedEntry_congr2 n k _ _ _ _ _ _ _ hv3.symm hv4.symm (hrow _ hj) (hrow k hk)

/-! ## Scatter and gather -/

theorem getD_take_drop (m : List Int) (a c t : Nat) (ht : t < c) :
    ((m.drop a).take c).getD t 0 = m.getD (a + t) 0 := by
  rw [List.getD_eq_getElem?_getD, List.getElem?_take_of_lt ht, List.getElem?_drop,
    List.getD_eq_getElem?_getD]

theorem take_drop_length (m : List Int) (a c : Nat) (h : a + c ≤ m.length) :
    ((m.drop a).take c).length = c := by
  rw [List.length_take, List.length_drop]
  omega

theorem MPI_Scatter_length (m : List Int) (c p : Nat) : (MPI_Scatter m c p).length = p := by
  simp [MPI_Scatter]

theorem MPI_Scatter_getElem? (m : List Int) (c p r : Nat) (hr : r < p) :
    (MPI_Scatter m c p)[r]? = some ((m.drop (r * c)).take c) := by
  unfold MPI_Scatter
  rw [List.getElem?_map, List.getElem?_range hr]
  rfl

theorem MPI_Scatter_mem_length (m : List Int) (c p : Nat) (hlen : p * c ≤ m.length) :
    ∀ l ∈ MPI_Scatter m c p, l.length = c := by
  intro l hl
  unfold MPI_Scatter at hl
  obtain ⟨r, hr, rfl⟩ := List.mem_map.1 hl
  have hr := List.mem_range.1 hr
  apply take_drop_length
  have := row_end_le r p c hr
  omega

/-- Gathering what was scattered gives back the first `p * c` values of the send buffer. -/
theorem MPI_Gather_Scatter_take (m : List Int) (c p : Nat) :
    MPI_Gather (MPI_Scatter m c p) c = m.take (p * c) := by
  unfold MPI_Gather MPI_Scatter
  induction p with
  | zero => simp
  | succ p ih =>
    rw [List.range_succ, List.map_append, List.map_append, List.flatten_append, ih,
      Nat.succ_mul, List.take_add]
    simp

theorem MPI_Gather_eq_flatten (L : List (List Int)) (c : Nat) (hL : ∀ l ∈ L, l.length = c) :
    MPI_Gather L c = L.flatten := by
  unfold MPI_Gather
  have h : L.map (fun b => b.take c) = L.map id := by
    apply List.map_congr_left
    intro l hl
    exact List.take_of_length_le (by rw [hL l hl])
  rw [h, List.map_id]

theorem count_eq (n p : Nat) (hdiv : p ∣ n) : n * n / p = n / p * n := by
  obtain ⟨b, rfl⟩ := hdiv
  rcases Nat.eq_zero_or_pos p with h0 | h0
  · subst h0; simp
  · rw [Nat.mul_div_cancel_left b h0, Nat.mul_assoc, Nat.mul_div_cancel_left _ h0]

theorem count_mul (n p : Nat) (hdiv : p ∣ n) : p * (n * n / p) = n * n := by
  apply Nat.mul_div_cancel'
  exact Dvd.dvd.mul_right hdiv n

/-! ## The ranks on entry to `Floyd` -/

theorem Floyd_init_local_mats (n : Nat) (L : List (List Int)) :
    (Floyd_init n L).map Proc.local_mat = L := by
  unfold Floyd_init
  rw [List.map_map]
  apply List.map_id''
  intro l
  rfl

theorem Floyd_init_wf (n p : Nat) (L : List (List Int)) (hp : L.length = p)
    (hL : ∀ l ∈ L, l.length = n / p * n) : WellFormed n p (Floyd_init n L) := by
  refine ⟨by simp [Floyd_init, hp], ?_⟩
  intro pr hpr
  unfold Floyd_init at hpr
  obtain ⟨l, hl, rfl⟩ := List.mem_map.1 hpr
  exact ⟨hL l hl, List.length_replicate _ _⟩

theorem Read_matrix_wf (n p : Nat) (hdiv : p ∣ n) (m : List Int)
    (hm : m.length = n * n) : WellFormed n p (Floyd_init n (Read_matrix n p m)) := by
  apply Floyd_init_wf
  · exact MPI_Scatter_length _ _ _
  · intro l hl
    rw [← count_eq n p hdiv]
    exact MPI_Scatter_mem_length m _ p (by rw [count_mul n p hdiv, hm]) l hl

theorem Read_matrix_global (n p : Nat) (hdiv : p ∣ n) (m : List Int)
    (hm : m.length = n * n) : globalMat (Floyd_init n (Read_matrix n p m)) = m := by
  unfold globalMat
  rw [Floyd_init_local_mats]
  unfold Read_matrix
  rw [← MPI_Gather_eq_flatten _ (n * n / p)
    (MPI_Scatter_mem_length m _ p (by rw [count_mul n p hdiv, hm])),
    MPI_Gather_Scatter_take]
  exact List.take_of_length_le (by rw [count_mul n p hdiv, hm])

theorem Print_matrix_global (n p : Nat) (hdiv : p ∣ n) (procs : List Proc)
    (hwf : WellFormed n p procs) :
    Print_matrix n p (procs.map Proc.local_mat) = globalMat procs := by
  unfold Print_matrix globalMat
  apply MPI_Gather_eq_flatten
  rw [count_eq n p hdiv]
  exact local_mats_uniform n p procs hwf

/-! ## All iterations -/

theorem Floyd_rounds_succ (n p m : Nat) (L : List (List Int)) :
    Floyd_rounds n p (m + 1) L = (Floyd_rounds n p m L).bind (fun procs => Floyd_iter n p m procs) := by
  unfold Floyd_rounds
  rw [List.range_succ, List.foldlM_append]
  cases (List.range m).foldlM (fun procs int_city => Floyd_iter n p int_city procs)
      (Floyd_init n L) with
  | none => rfl
  | some procs => simp [List.foldlM_cons, List.foldlM_nil]

/-- Under `p ∣ n` the rounds for the pivots below `m ≤ n` go on, keep the ranks well formed
and act on the global matrix as the global steps. -/
theorem Floyd_rounds_global (n p : Nat) (hdiv : p ∣ n) (L : List (List Int))
    (hwf : WellFormed n p (Floyd_init n L)) (m : Nat) (hm : m ≤ n) :
    ∃ procs, Floyd_rounds n p m L = some procs ∧ WellFormed n p procs ∧
      globalMat procs = globalRounds n m (globalMat (Floyd_init n L)) := by
  induction m with
  | zero => exact ⟨_, rfl, hwf, rfl⟩
  | succ m ih =>
    obtain ⟨procs, ihs, ihw, ihg⟩ := ih (by omega)
    obtain ⟨procs2, h0, h1, h2⟩ := Floyd_iter_global n p m hdiv (by omega) procs ihw
    refine ⟨procs2, ?_, h1, ?_⟩
    · rw [Floyd_rounds_succ, ihs]
      exact h0
    · rw [h2, ihg]
      unfold globalRounds
      rw [List.range_succ, List.foldl_append]
      rfl

/-- The program on `p` ranks returns the result of the `n` global steps on its input,
whatever `p` is. -/
theorem run_eq_globalRounds (n p : Nat) (hdiv : p ∣ n) (m : List Int)
    (hm : m.length = n * n) : run n p m = some (globalRounds n n m) := by
  have hwf := Read_matrix_wf n p hdiv m hm
  obtain ⟨procs, h0, h1, h2⟩ := Floyd_rounds_global n p hdiv _ hwf n (le_refl n)
  unfold run Floyd
  rw [h0, Option.map_some', Option.map_some', Print_matrix_global n p hdiv _ h1, h2,
    Read_matrix_global n p hdiv m hm]

/-! ## Valid matrices -/

theorem entry_globalStep (n k : Nat) (g : List Int) (i j : Nat) (hi : i < n) (hj : j < n) :
    entry n (globalStep n k g) i j = relaxedEntry n k (rowOf n g k) g i j :=
  globalStep_getD n k g i j hi hj

/-- On a valid matrix one global step is the Floyd-Warshall relaxation
`min (d i j) (d i k + d k j)` in the integers, read from the matrix before the step. -/
theorem entry_globalStep_valid (n k : Nat) (g : List Int) (hv : Valid n g) (hk : k < n)
    (i j : Nat) (hi : i < n) (hj : j < n) :
    entry n (globalStep n k g) i j =
      Min.min (entry n g i j) (entry n g i k + entry n g k j) := by
  obtain ⟨_, hdiag, hrange⟩ := hv
  rw [entry_globalStep n k g i j hi hj]
  unfold relaxedEntry pivotCol
  rw [rowOf_getD n g k j hj, rowOf_getD n g k k hk]
  have hkk : g.getD (k * n + k) 0 = 0 := hdiag k hk
  have hik := hrange i hi k hk
  have hkj := hrange k hk j hj
  unfold entry INFINITY at *
  rw [hkk, addInt_eq _ 0 (by omega) (by omega), Int.add_zero]
  have hmin : FloydParallel.min (g.getD (i * n + k) 0) (g.getD (i * n + k) 0)
      = g.getD (i * n + k) 0 := by
    rw [min_eq_min]; exact min_self _
  rw [hmin, ite_self, addInt_eq _ _ (by omega) (by omega), min_eq_min]

theorem globalStep_valid (n k : Nat) (g : List Int) (hv : Valid n g) (hk : k < n) :
    Valid n (globalStep n k g) := by
  refine ⟨globalStep_length n k g, ?_, ?_⟩
  · intro i hi
    rw [entry_globalStep_valid n k g hv hk i i hi hi]
    have h1 := hv.2.2 i hi k hk
    have h2 := hv.2.2 k hk i hi
    have h3 := hv.2.1 i hi
    rw [h3]
    omega
  · intro i hi j hj
    rw [entry_globalStep_valid n k g hv hk i j hi hj]
    have h1 := hv.2.2 i hi k hk
    have h2 := hv.2.2 k hk j hj
    have h3 := hv.2.2 i hi j hj
    omega

theorem globalRounds_succ (n m : Nat) (g : List Int) :
    globalRounds n (m + 1) g = globalStep n m (globalRounds n m g) := by
  unfold globalRounds
  rw [List.range_succ, List.foldl_append]
  rfl

theorem globalRounds_valid (n : Nat) (g : List Int) (hv : Valid n g) (m : Nat) (hm : m ≤ n) :
    Valid n (globalRounds n m g) := by
  induction m with
  | zero => exact hv
  | succ m ih =>
    rw [globalRounds_succ]
    exact globalStep_valid n m _ (ih (by omega)) (by omega)

/-- Two matrices of `n * n` values with the same entries are equal. -/
theorem ext_entry (n : Nat) (g₁ g₂ : List Int) (h1 : g₁.length = n * n) (h2 : g₂.length = n * n)
    (h : ∀ i, i < n → ∀ j, j < n → entry n g₁ i j = entry n g₂ i j) : g₁ = g₂ := by
  apply ext_getD _ _ (by rw [h1, h2])
  intro idx hidx
  rw [h1] at hidx
  have := h _ (cell_row_lt n idx hidx) _ (cell_col_lt n idx hidx)
  unfold entry at this
  rwa [cell_index] at this

/-! ## Routes and their costs -/

theorem pathCost_append (w : Nat → Nat → Int) (m1 m2 : List Nat) (i k j : Nat) :
    pathCost w i (m1 ++ k :: m2) j = pathCost w i m1 k + pathCost w k m2 j := by
  induction m1 generalizing i with
  | nil => rfl
  | cons v m1 ih =>
    show w i v + pathCost w v (m1 ++ k :: m2) j = w i v + pathCost w v m1 k + pathCost w k m2 j
    rw [ih v, Int.add_assoc]

theorem pathCost_nonneg (n : Nat) (w : Nat → Nat → Int)
    (hw : ∀ i, i < n → ∀ j, j < n → 0 ≤ w i j) (mids : List Nat) (hm : ∀ v ∈ mids, v < n)
    (i j : Nat) (hi : i < n) (hj : j < n) : 0 ≤ pathCost w i mids j := by
  induction mids generalizing i with
  | nil => exact hw i hi j hj
  | cons v mids ih =>
    have hv : v < n := hm v (List.mem_cons_self _ _)
    have h1 := hw i hi v hv
    have h2 := ih (fun x hx => hm x (List.mem_cons_of_mem _ hx)) v hv
    simp only [pathCost]
    omega

theorem lt_of_le_of_ne_mem (k : Nat) (m : List Nat) (hm : ∀ v ∈ m, v < k + 1) (hk : k ∉ m) :
    ∀ v ∈ m, v < k := by
  intro v hv
  have h1 := hm v hv
  have h2 : v ≠ k := fun h => hk (h ▸ hv)
  omega

/-- A route that passes through `k`, with intermediate vertices up to `k`, costs at least the
least cost from `k` to its end through vertices below `k`. -/
theorem pathCost_through_ge (n : Nat) (w : Nat → Nat → Int) (k : Nat) (g : List Int)
    (hk : k < n) (hw : ∀ i, i < n → ∀ j, j < n → 0 ≤ w i j) (hinv : ShortestBelow n w k g)
    (j : Nat) (hj : j < n) (m : List Nat) (hm : ∀ v ∈ m, v < k + 1) (hmem : k ∈ m)
    (u : Nat) (hu : u < n) : entry n g k j ≤ pathCost w u m j := by
  induction m generalizing u with
  | nil => simp at hmem
  | cons v m ih =>
    have hv : v < n := by
      have := hm v (List.mem_cons_self _ _)
      omega
    have hm2 : ∀ x ∈ m, x < k + 1 := fun x hx => hm x (List.mem_cons_of_mem _ hx)
    have h1 := hw u hu v hv
    simp only [pathCost]
    by_cases hkm : k ∈ m
    · have := ih hm2 hkm v hv
      omega
    · have hvk : v = k := by
        rcases List.mem_cons.1 hmem with h | h
        · exact h.symm
        · exact absurd h hkm
      subst hvk
      have := (hinv v hk j hj).2 m (lt_of_le_of_ne_mem v m hm2 hkm)
      omega

/-- The Floyd-Warshall step: relaxing every entry through `k` turns least costs through the
vertices below `k` into least costs through the vertices below `k + 1`. -/
theorem shortestBelow_step (n : Nat) (w : Nat → Nat → Int) (k : Nat) (g g2 : List Int)
    (hk : k < n) (hw : ∀ i, i < n → ∀ j, j < n → 0 ≤ w i j) (hinv : ShortestBelow n w k g)
    (hstep : ∀ i, i < n → ∀ j, j < n →
      entry n g2 i j = Min.min (entry n g i j) (entry n g i k + entry n g k j)) :
    ShortestBelow n w (k + 1) g2 := by
  intro i hi j hj
  rw [hstep i hi j hj]
  constructor
  · obtain ⟨m0, hm0, hc0⟩ := (hinv i hi j hj).1
    obtain ⟨m1, hm1, hc1⟩ := (hinv i hi k hk).1
    obtain ⟨m2, hm2, hc2⟩ := (hinv k hk j hj).1
    by_cases hle : entry n g i j ≤ entry n g i k + entry n g k j
    · refine ⟨m0, fun v hv => Nat.lt_succ_of_lt (hm0 v hv), ?_⟩
      rw [hc0, min_eq_left hle]
    · refine ⟨m1 ++ k :: m2, ?_, ?_⟩
      · intro v hv
        rcases List.mem_append.1 hv with h | h
        · exact Nat.lt_succ_of_lt (hm1 v h)
        · rcases List.mem_cons.1 h with h | h
          · omega
          · exact Nat.lt_succ_of_lt (hm2 v h)
      · rw [pathCost_append, hc1, hc2, min_eq_right (by omega)]
  · intro mids hmids
    by_cases hkm : k ∈ mids
    · obtain ⟨m1, m2, rfl, hnot⟩ := List.eq_append_cons_of_mem hkm
      have hm1 : ∀ v ∈ m1, v < k :=
        lt_of_le_of_ne_mem k m1 (fun v hv => hmids v (List.mem_append_left _ hv)) hnot
      have hm2 : ∀ v ∈ m2, v < k + 1 :=
        fun v hv => hmids v (List.mem_append_right _ (List.mem_cons_of_mem _ hv))
      have h1 := (hinv i hi k hk).2 m1 hm1
      have h2 : entry n g k j ≤ pathCost w k m2 j := by
        by_cases hk2 : k ∈ m2
        · exact pathCost_through_ge n w k g hk hw hinv j hj m2 hm2 hk2 k hk
        · exact (hinv k hk j hj).2 m2 (lt_of_le_of_ne_mem k m2 hm2 hk2)
      rw [pathCost_append]
      have := min_le_right (entry n g i j) (entry n g i k + entry n g k j)
      omega
    · have h1 := (hinv i hi j hj).2 mids (lt_of_le_of_ne_mem k mids hmids hkm)
      have := min_le_left (entry n g i j) (entry n g i k + entry n g k j)
      omega

theorem shortestBelow_zero (n : Nat) (g : List Int) :
    ShortestBelow n (entry n g) 0 g := by
  intro i _ j _
  constructor
  · exact ⟨[], fun v hv => by simp at hv, rfl⟩
  · intro mids hmids
    cases mids with
    | nil => exact le_refl _
    | cons v m =>
      have := hmids v (List.mem_cons_self _ _)
      omega

/-- After the global steps for the pivots `0 .. m-1` on a valid matrix every entry is the
least cost of a route through the vertices below `m`. -/
theorem globalRounds_shortestBelow (n : Nat) (g : List Int) (hv : Valid n g) (m : Nat)
    (hm : m ≤ n) : ShortestBelow n (entry n g) m (globalRounds n m g) := by
  induction m with
  | zero => exact shortestBelow_zero n g
  | succ m ih =>
    rw [globalRounds_succ]
    have hvm := globalRounds_valid n g hv m (by omega)
    exact shortestBelow_step n (entry n g) m _ _ (by omega)
      (fun i hi j hj => (hv.2.2 i hi j hj).1) (ih (by omega))
      (fun i hi j hj => entry_globalStep_valid n m _ hvm (by omega) i j hi hj)

/-! ## The sequential triple loop -/

theorem idx_inj (n i j i2 j2 : Nat) (hj : j < n) (hj2 : j2 < n) (h : i * n + j = i2 * n + j2) :
    i = i2 ∧ j = j2 := by
  have e1 : (i * n + j) / n = i := by
    rw [Nat.add_comm, Nat.add_mul_div_right _ _ (by omega), Nat.div_eq_of_lt hj, Nat.zero_add]
  have e2 : (i2 * n + j2) / n = i2 := by
    rw [Nat.add_comm, Nat.add_mul_div_right _ _ (by omega), Nat.div_eq_of_lt hj2, Nat.zero_add]
  have hi : i = i2 := by rw [← e1, ← e2, h]
  subst hi
  exact ⟨rfl, by omega⟩

theorem entry_set_self (n : Nat) (d : List Int) (i j : Nat) (v : Int) (hi : i < n) (hj : j < n)
    (hlen : d.length = n * n) : entry n (d.set (i * n + j) v) i j = v := by
  unfold entry
  apply getD_set_self
  have := row_end_le i n n hi
  omega

theorem entry_set_ne (n : Nat) (d : List Int) (i j i2 j2 : Nat) (v : Int) (hj : j < n)
    (hj2 : j2 < n) (hne : ¬ (i2 = i ∧ j2 = j)) :
    entry n (d.set (i * n + j) v) i2 j2 = entry n d i2 j2 := by
  unfold entry
  apply getD_set_ne
  intro h
  have := idx_inj n i j i2 j2 hj hj2 h
  exact hne ⟨this.1.symm, this.2.symm⟩

/-- The state of the sequential loop for the pivot `k` on the valid matrix `g`, when the
rows before `i0` and the first `c` columns of row `i0` are done: a done entry holds the
relaxed value, every other entry the value of `g`. -/
theorem seqRow_loop (n k : Nat) (g : List Int) (hv : Valid n g) (hk : k < n) (i0 : Nat)
    (hi0 : i0 < n) (d : List Int) (hlen : d.length = n * n)
    (hdone : ∀ i, i < n → ∀ j, j < n → i < i0 →
      entry n d i j = Min.min (entry n g i j) (entry n g i k + entry n g k j))
    (hrest : ∀ i, i < n → ∀ j, j < n → ¬ i < i0 → entry n d i j = entry n g i j)
    (c : Nat) (hc : c ≤ n) :
    ((List.range c).foldl (seqCell n k i0) d).length = n * n ∧
    (∀ i, i < n → ∀ j, j < n → (i < i0 ∨ (i = i0 ∧ j < c)) →
      entry n ((List.range c).foldl (seqCell n k i0) d) i j =
        Min.min (entry n g i j) (entry n g i k + entry n g k j)) ∧
    (∀ i, i < n → ∀ j, j < n → ¬ (i < i0 ∨ (i = i0 ∧ j < c)) →
      entry n ((List.range c).foldl (seqCell n k i0) d) i j = entry n g i j) := by
  obtain ⟨_, hdiag, hrange⟩ := hv
  have hkk := hdiag k hk
  induction c with
  | zero =>
    refine ⟨hlen, ?_, ?_⟩
    · intro i hi j hj h
      exact hdone i hi j hj (by omega)
    · intro i hi j hj h
      exact hrest i hi j hj (by omega)
  | succ c ih =>
    obtain ⟨ihl, ihd, ihr⟩ := ih (by omega)
    rw [List.range_succ, List.foldl_append]
    simp only [List.foldl_cons, List.foldl_nil]
    have hcn : c < n := by omega
    -- the three reads of the body
    have r1 : entry n ((List.range c).foldl (seqCell n k i0) d) i0 c = entry n g i0 c :=
      ihr i0 hi0 c hcn (by omega)
    have r2 : entry n ((List.range c).foldl (seqCell n k i0) d) i0 k = entry n g i0 k := by
      by_cases h : (i0 < i0 ∨ (i0 = i0 ∧ k < c))
      · rw [ihd i0 hi0 k hk h, hkk]
        have := hrange i0 hi0 k hk
        simp
      · exact ihr i0 hi0 k hk h
    have r3 : entry n ((List.range c).foldl (seqCell n k i0) d) k c = entry n g k c := by
      by_cases h : (k < i0 ∨ (k = i0 ∧ c < c))
      · rw [ihd k hk c hcn h, hkk]
        simp
      · exact ihr k hk c hcn h
    generalize (List.range c).foldl (seqCell n k i0) d = s at ihl ihd ihr r1 r2 r3 ⊢
    unfold seqCell
    refine ⟨by rw [List.length_set, ihl], ?_, ?_⟩
    · intro i hi j hj h
      by_cases hcell : i = i0 ∧ j = c
      · obtain ⟨rfl, rfl⟩ := hcell
        rw [entry_set_self n _ i j _ hi hj ihl]
        unfold entry at r1 r2 r3
        rw [r1, r2, r3]
        rfl
      · rw [entry_set_ne n _ i0 c i j _ hcn hj hcell]
        exact ihd i hi j hj (by omega)
    · intro i hi j hj h
      rw [entry_set_ne n _ i0 c i j _ hcn hj (by omega)]
      exact ihr i hi j hj (by omega)

theorem seqRound_loop (n k : Nat) (g : List Int) (hv : Valid n g) (hk : k < n)
    (t : Nat) (ht : t ≤ n) :
    ((List.range t).foldl (seqRow n k) g).length = n * n ∧
    (∀ i, i < n → ∀ j, j < n → i < t →
      entry n ((List.range t).foldl (seqRow n k) g) i j =
        Min.min (entry n g i j) (entry n g i k + entry n g k j)) ∧
    (∀ i, i < n → ∀ j, j < n → ¬ i < t →
      entry n ((List.range t).foldl (seqRow n k) g) i j = entry n g i j) := by
  induction t with
  | zero =>
    refine ⟨hv.1, ?_, ?_⟩
    · intro i _ j _ h; omega
    · intro i _ j _ _; rfl
  | succ t ih =>
    obtain ⟨ihl, ihd, ihr⟩ := ih (by omega)
    rw [List.range_succ, List.foldl_append]
    simp only [List.foldl_cons, List.foldl_nil]
    obtain ⟨sl, sd, sr⟩ := seqRow_loop n k g hv hk t (by omega) _ ihl ihd ihr n (le_refl n)
    refine ⟨sl, ?_, ?_⟩
    · intro i hi j hj h
      exact sd i hi j hj (by omega)
    · intro i hi j hj h
      exact sr i hi j hj (by omega)

/-- On a valid matrix the sequential in-place round for the pivot `k` is the global step of
the parallel program. -/
theorem seqRound_eq_globalStep (n k : Nat) (g : List Int) (hv : Valid n g) (hk : k < n) :
    seqRound n g k = globalStep n k g := by
  obtain ⟨sl, sd, _⟩ := seqRound_loop n k g hv hk n (le_refl n)
  apply ext_entry n _ _ sl (globalStep_length n k g)
  intro i hi j hj
  rw [entry_globalStep_valid n k g hv hk i j hi hj]
  exact sd i hi j hj hi

theorem seqFloydWarshall_loop (n : Nat) (g : List Int) (hv : Valid n g) (m : Nat) (hm : m ≤ n) :
    (List.range m).foldl (seqRound n) g = globalRounds n m g := by
  induction m with
  | zero => rfl
  | succ m ih =>
    rw [List.range_succ, List.foldl_append, ih (by omega), globalRounds_succ]
    exact seqRound_eq_globalStep n m _ (globalRounds_valid n g hv m (by omega)) (by omega)

/-! ## Vertex sequences -/

theorem seqCost_cons_concat (w : Nat → Nat → Int) (mids : List Nat) (i j : Nat) :
    seqCost w (i :: (mids ++ [j])) = pathCost w i mids j := by
  induction mids generalizing i with
  | nil => simp [seqCost, pathCost]
  | cons v m ih =>
    show w i v + seqCost w (v :: (m ++ [j])) = w i v + pathCost w v m j
    rw [ih v]

theorem isSeq_cons_concat (n i j : Nat) (mids : List Nat) (hi : i < n) (hj : j < n)
    (hm : ∀ v ∈ mids, v < n) : IsSeq n i j (i :: (mids ++ [j])) := by
  refine ⟨rfl, ?_, ?_⟩
  · rw [← List.cons_append, List.getLast?_concat]
  · intro v hv
    rcases List.mem_cons.1 hv with h | h
    · omega
    · rcases List.mem_append.1 h with h | h
      · exact hm v h
      · have := List.mem_singleton.1 h
        omega

theorem inner_cons_concat (i j : Nat) (mids : List Nat) : inner (i :: (mids ++ [j])) = mids := by
  unfold inner
  rw [List.tail_cons, List.dropLast_concat]

/-- A vertex sequence from `i` to `j` is either the single vertex `i = j` or `i`, some
intermediate vertices, `j`. -/
theorem isSeq_cases (n i j : Nat) (vs : List Nat) (h : IsSeq n i j vs) :
    (vs = [i] ∧ j = i) ∨ ∃ mids, vs = i :: (mids ++ [j]) := by
  obtain ⟨hh, hl, _⟩ := h
  obtain ⟨t, rfl⟩ := List.head?_eq_some_iff.1 hh
  obtain ⟨ys, hys⟩ := List.getLast?_eq_some_iff.1 hl
  cases ys with
  | nil =>
    left
    simp at hys
    exact ⟨by rw [hys.2], hys.1.symm⟩
  | cons y ys =>
    right
    simp at hys
    exact ⟨ys, by rw [hys.2]⟩

theorem seqCost_nonneg (n : Nat) (w : Nat → Nat → Int)
    (hw : ∀ i, i < n → ∀ j, j < n → 0 ≤ w i j) (vs : List Nat) (hvs : ∀ v ∈ vs, v < n) :
    0 ≤ seqCost w vs := by
  induction vs with
  | nil => simp [seqCost]
  | cons u rest ih =>
    cases rest with
    | nil => simp [seqCost]
    | cons v rest =>
      have h1 := hw u (hvs u (List.mem_cons_self _ _)) v
        (hvs v (List.mem_cons_of_mem _ (List.mem_cons_self _ _)))
      have h2 := ih (fun x hx => hvs x (List.mem_cons_of_mem _ hx))
      simp only [seqCost]
      omega

theorem seqCost_append (w : Nat → Nat → Int) (a b : List Nat) (u : Nat) :
    seqCost w (a ++ u :: b) = seqCost w (a ++ [u]) + seqCost w (u :: b) := by
  induction a with
  | nil => simp [seqCost]
  | cons x a ih =>
    cases a with
    | nil => simp [seqCost]
    | cons y a =>
      have e1 : seqCost w (x :: y :: a ++ u :: b) = w x y + seqCost w (y :: a ++ u :: b) := rfl
      have e2 : seqCost w (x :: y :: a ++ [u]) = w x y + seqCost w (y :: a ++ [u]) := rfl
      rw [e1, e2, ih]
      omega

/-- Cutting the cycles out of a vertex sequence: for nonnegative weights there is a sequence
without repeated vertices, with the same ends, through vertices of the given one, that costs
no more. -/
theorem exists_nodup_le (n : Nat) (w : Nat → Nat → Int)
    (hw : ∀ i, i < n → ∀ j, j < n → 0 ≤ w i j) (vs : List Nat) (hne : vs ≠ [])
    (hvs : ∀ v ∈ vs, v < n) :
    ∃ vs2 : List Nat, vs2.Nodup ∧ vs2.head? = vs.head? ∧ vs2.getLast? = vs.getLast? ∧
      (∀ v ∈ vs2, v ∈ vs) ∧ seqCost w vs2 ≤ seqCost w vs := by
  induction vs with
  | nil => exact absurd rfl hne
  | cons u rest ih =>
    cases rest with
    | nil => exact ⟨[u], List.nodup_singleton u, rfl, rfl, fun v hv => hv, le_refl _⟩
    | cons v rest =>
      have hrest : ∀ x ∈ v :: rest, x < n := fun x hx => hvs x (List.mem_cons_of_mem _ hx)
      obtain ⟨r2, hnd, hhead, hlast, hsub, hcost⟩ := ih (List.cons_ne_nil _ _) hrest
      have hu : u < n := hvs u (List.mem_cons_self _ _)
      have hv : v < n := hrest v (List.mem_cons_self _ _)
      have huv := hw u hu v hv
      have hr2 : ∀ x ∈ r2, x < n := fun x hx => hrest x (hsub x hx)
      by_cases hmem : u ∈ r2
      · obtain ⟨a, b, rfl⟩ := List.append_of_mem hmem
        refine ⟨u :: b, (List.nodup_append.1 hnd).2.1, rfl, ?_, ?_, ?_⟩
        · rw [List.getLast?_cons_cons, ← hlast, List.getLast?_append_cons]
        · intro x hx
          rcases List.mem_cons.1 hx with h | h
          · rw [h]; exact List.mem_cons_self _ _
          · exact List.mem_cons_of_mem _ (hsub x (List.mem_append_right _ (List.mem_cons_of_mem _ h)))
        · rw [seqCost_append] at hcost
          have h0 := seqCost_nonneg n w hw (a ++ [u]) (by
            intro x hx
            rcases List.mem_append.1 hx with h | h
            · exact hr2 x (List.mem_append_left _ h)
            · rw [List.mem_singleton.1 h]; exact hu)
          simp only [seqCost]
          omega
      · obtain ⟨t, rfl⟩ := List.head?_eq_some_iff.1 (hhead.trans rfl)
        refine ⟨u :: v :: t, List.nodup_cons.2 ⟨hmem, hnd⟩, rfl, ?_, ?_, ?_⟩
        · rw [List.getLast?_cons_cons, List.getLast?_cons_cons, hlast]
        · intro x hx
          rcases List.mem_cons.1 hx with h | h
          · rw [h]; exact List.mem_cons_self _ _
          · exact List.mem_cons_of_mem _ (hsub x h)
        · simp only [seqCost]
          omega

/-- Least costs through the vertices below `K`, stated on vertex sequences: the entry
`(i, j)` is the cost of a sequence from `i` to `j` without repeated vertices whose
intermediate vertices are below `K`, and no sequence from `i` to `j` with intermediate
vertices below `K` costs less. -/
theorem shortest_seq (n : Nat) (w : Nat → Nat → Int) (K : Nat) (g : List Int) (hK : K ≤ n)
    (hw : ∀ i, i < n → ∀ j, j < n → 0 ≤ w i j) (hinv : ShortestBelow n w K g)
    (hdiag : ∀ i, i < n → entry n g i i = 0) (i j : Nat) (hi : i < n) (hj : j < n) :
    (∃ vs, IsSeq n i j vs ∧ vs.Nodup ∧ (∀ v ∈ inner vs, v < K) ∧
      seqCost w vs = entry n g i j) ∧
    (∀ vs, IsSeq n i j vs → (∀ v ∈ inner vs, v < K) → entry n g i j ≤ seqCost w vs) := by
  have hlow : ∀ vs, IsSeq n i j vs → (∀ v ∈ inner vs, v < K) →
      entry n g i j ≤ seqCost w vs := by
    intro vs hs hin
    rcases isSeq_cases n i j vs hs with ⟨rfl, rfl⟩ | ⟨mids, rfl⟩
    · rw [hdiag j hi]
      exact le_refl _
    · rw [inner_cons_concat] at hin
      rw [seqCost_cons_concat]
      exact (hinv i hi j hj).2 mids hin
  refine ⟨?_, hlow⟩
  by_cases hij : i = j
  · subst hij
    refine ⟨[i], ⟨rfl, rfl, ?_⟩, List.nodup_singleton i, ?_, ?_⟩
    · intro v hv
      rw [List.mem_singleton.1 hv]
      exact hi
    · intro v hv
      simp [inner] at hv
    · rw [hdiag i hi]
      rfl
  · obtain ⟨mids, hmids, hcost⟩ := (hinv i hi j hj).1
    have hs0 := isSeq_cons_concat n i j mids hi hj (fun v hv => by have := hmids v hv; omega)
    obtain ⟨vs2, hnd, hhead, hlast, hsub, hle⟩ :=
      exists_nodup_le n w hw (i :: (mids ++ [j])) (List.cons_ne_nil _ _) hs0.2.2
    have hs2 : IsSeq n i j vs2 :=
      ⟨hhead.trans hs0.1, hlast.trans hs0.2.1, fun v hv => hs0.2.2 v (hsub v hv)⟩
    rcases isSeq_cases n i j vs2 hs2 with ⟨_, h⟩ | ⟨m2, rfl⟩
    · exact absurd h.symm hij
    · have hin2 : ∀ v ∈ inner (i :: (m2 ++ [j])), v < K := by
        rw [inner_cons_concat]
        intro v hv
        have hvi : v ≠ i := by
          intro h
          subst h
          exact (List.nodup_cons.1 hnd).1 (List.mem_append_left _ hv)
        have hvj : v ≠ j := by
          intro h
          subst h
          have := (List.nodup_append.1 (List.nodup_cons.1 hnd).2).2.2
          exact this hv (List.mem_singleton_self v)
        have hmem := hsub v (List.mem_cons_of_mem _ (List.mem_append_left _ hv))
        rcases List.mem_cons.1 hmem with h | h
        · exact absurd h hvi
        · rcases List.mem_append.1 h with h | h
          · exact hmids v h
          · exact absurd (List.mem_singleton.1 h) hvj
      refine ⟨i :: (m2 ++ [j]), hs2, hnd, hin2, ?_⟩
      have h1 := hlow _ hs2 hin2
      rw [seqCost_cons_concat w mids, hcost] at hle
      omega

/-- After every number of rounds the program is still running and the global matrix of the
ranks is the global matrix after as many global steps on the input. -/
theorem rounds_global (n p : Nat) (hdiv : p ∣ n) (input : List Int)
    (hlen : input.length = n * n) (m : Nat) (hm : m ≤ n) :
    ∃ procs, Floyd_rounds n p m (Read_matrix n p input) = some procs ∧
      WellFormed n p procs ∧ globalMat procs = globalRounds n m input := by
  obtain ⟨procs, h0, h1, h2⟩ :=
    Floyd_rounds_global n p hdiv _ (Read_matrix_wf n p hdiv input hlen) m hm
  exact ⟨procs, h0, h1, by rw [h2, Read_matrix_global n p hdiv input hlen]⟩

/-- The triangle inequality of a matrix of least costs through all vertices. -/
theorem triangle_of_shortest (n : Nat) (w : Nat → Nat → Int) (g : List Int)
    (hinv : ShortestBelow n w n g) (i j k : Nat) (hi : i < n) (hj : j < n) (hk : k < n) :
    entry n g i j ≤ entry n g i k + entry n g k j := by
  obtain ⟨m1, hm1, hc1⟩ := (hinv i hi k hk).1
  obtain ⟨m2, hm2, hc2⟩ := (hinv k hk j hj).1
  have := (hinv i hi j hj).2 (m1 ++ k :: m2) (by
    intro v hv
    rcases List.mem_append.1 hv with h | h
    · exact hm1 v h
    · rcases List.mem_cons.1 h with h | h
      · omega
      · exact hm2 v h)
  rw [pathCost_append, hc1, hc2] at this
  exact this

/-- A valid matrix with the triangle inequality is a fixed point of every global step. -/
theorem globalStep_fixed (n k : Nat) (g : List Int) (hv : Valid n g) (hk : k < n)
    (htri : ∀ i, i < n → ∀ j, j < n → entry n g i j ≤ entry n g i k + entry n g k j) :
    globalStep n k g = g := by
  apply ext_entry n _ _ (globalStep_length n k g) hv.1
  intro i hi j hj
  rw [entry_globalStep_valid n k g hv hk i j hi hj]
  exact min_eq_left (htri i hi j hj)

theorem globalRounds_fixed (n : Nat) (g : List Int) (hv : Valid n g)
    (htri : ∀ i, i < n → ∀ j, j < n → ∀ k, k < n →
      entry n g i j ≤ entry n g i k + entry n g k j) (m : Nat) (hm : m ≤ n) :
    globalRounds n m g = g := by
  induction m with
  | zero => rfl
  | succ m ih =>
    rw [globalRounds_succ, ih (by omega)]
    exact globalStep_fixed n m g hv (by omega) (fun i hi j hj => htri i hi j hj m (by omega))

/-- Scattering the concatenation of `p` blocks of `c` values gives the blocks back. -/
theorem MPI_Scatter_flatten (L : List (List Int)) (c p : Nat) (hp : L.length = p)
    (hL : ∀ l ∈ L, l.length = c) : MPI_Scatter L.flatten c p = L := by
  apply List.ext_getElem (by rw [MPI_Scatter_length, hp])
  intro r h1 h2
  rw [MPI_Scatter_length] at h1
  have hs := MPI_Scatter_getElem? L.flatten c p r h1
  rw [List.getElem?_eq_getElem (by rw [MPI_Scatter_length]; exact h1)] at hs
  rw [Option.some.inj hs]
  have hflat := flatten_length_uniform L c hL
  have hend := row_end_le r p c h1
  apply ext_getD
  · rw [take_drop_length _ _ _ (by rw [hflat, hp]; omega), hL _ (List.getElem_mem h2)]
  · intro t ht
    rw [take_drop_length _ _ _ (by rw [hflat, hp]; omega)] at ht
    rw [getD_take_drop _ _ _ _ ht, flatten_getD L c hL r t ht, List.getD_eq_getElem _ _ h2]

/-! ## The claims -/

/-- C2 fails as stated: with `n = 2`, `p = 1`, pivot `k = 0`, the block `[0,0,0,0]` and the
pivot row `[-1, 0]`, the round writes `-1` at local entry `(0, 1)`, where
`min(oldBlock[0][1], oldBlock[0][0] + pivotRow[1])` is `0`, in machine and in integer
arithmetic alike. -/
theorem C2_counterexample :
    1 ∣ 2 ∧ [0, 0, 0, 0].length = 2 / 1 * 2 ∧ [-1, 0].length = 2 ∧ 0 < 2 ∧ 0 < 2 / 1 ∧ 1 < 2 ∧
    (relax 2 1 0 [-1, 0] [0, 0, 0, 0]).getD (0 * 2 + 1) 0 = -1 ∧
    min (([0, 0, 0, 0] : List Int).getD (0 * 2 + 1) 0)
      (addInt (([0, 0, 0, 0] : List Int).getD (0 * 2 + 0) 0) (([-1, 0] : List Int).getD 1 0)) = 0 ∧
    Min.min (([0, 0, 0, 0] : List Int).getD (0 * 2 + 1) 0)
      ((([0, 0, 0, 0] : List Int).getD (0 * 2 + 0) 0) + (([-1, 0] : List Int).getD 1 0)) = 0 := by
  decide

/-- C2, amended: one relaxation round on a block of `n/p` rows, for any pivot row of length
`n` and any `k < n`, writes at local entry `(r, j)` the value
`min(oldBlock[r][j], oldBlock[r][k] + pivotRow[j])` of the block from before the round (the
sum being the program's `int` sum), whenever `j ≤ k`, or the pivot row does not lower column
`k` of the row: `oldBlock[r][k] ≤ oldBlock[r][k] + pivotRow[k]`. -/
theorem C2_relax_round (n p k : Nat) (row lm : List Int) (r j : Nat) (hp : 1 ≤ p)
    (hdiv : p ∣ n) (hlen : lm.length = n / p * n) (hrow : row.length = n) (hk : k < n)
    (hr : r < n / p) (hj : j < n)
    (hcol : j ≤ k ∨ lm.getD (r * n + k) 0 ≤ addInt (lm.getD (r * n + k) 0) (row.getD k 0)) :
    (relax n p k row lm).getD (r * n + j) 0 =
      min (lm.getD (r * n + j) 0) (addInt (lm.getD (r * n + k) 0) (row.getD j 0)) := by
  rw [(relax_spec n p k row lm hlen).2 r j hr hj]
  unfold relaxedEntry pivotCol
  rcases hcol with h | h
  · rw [if_pos h]
  · have : min (lm.getD (r * n + k) 0) (addInt (lm.getD (r * n + k) 0) (row.getD k 0))
        = lm.getD (r * n + k) 0 := by
      unfold min
      split <;> omega
    rw [this, ite_self]

theorem C2_relax_round_witness :
    (relax 2 1 0 [0, 1] [0, 5, 7, 0]).getD (1 * 2 + 1) 0 =
      min (([0, 5, 7, 0] : List Int).getD (1 * 2 + 1) 0)
        (addInt (([0, 5, 7, 0] : List Int).getD (1 * 2 + 0) 0) (([0, 1] : List Int).getD 1 0)) :=
  C2_relax_round 2 1 0 [0, 1] [0, 5, 7, 0] 1 1 (by decide) (by decide) (by decide) (by decide)
    (by decide) (by decide) (by decide) (by decide)

/-- C8: for `n ≥ 1`, `p ≥ 1` dividing `n`, a pivot `k < n` and any well-formed state of the
`p` ranks: the row that the owner `root = k / (n/p)` copies from its local row `k mod (n/p)`
is global row `k` of the current matrix, the broadcast goes through, and after it every rank
holds that row: `row_int_city[j] = global[k*n + j]` for all `j < n`, on all `p` ranks. -/
theorem C8_pivot_row_broadcast (n p : Nat) (hn : 1 ≤ n) (hp : 1 ≤ p) (hdiv : p ∣ n)
    (procs : List Proc) (hwf : WellFormed n p procs) (k : Nat) (hk : k < n) :
    root n p k = k / (n / p) ∧
    (∃ owner, procs[root n p k]? = some owner ∧
      ∀ j, j < n →
        (copyPivotRow n p k (root n p k) owner).row_int_city.getD j 0 =
          (globalMat procs).getD (k * n + j) 0) ∧
    ∃ received, Floyd_bcast n p k procs = some received ∧
      received.length = p ∧
      ∀ pr ∈ received,
        pr.row_int_city.length = n ∧
        ∀ j, j < n → pr.row_int_city.getD j 0 = (globalMat procs).getD (k * n + j) 0 := by
  have hb := block_size_pos n p hn hp hdiv
  have hroot : root n p k < procs.length := by rw [hwf.1]; exact root_lt n p k hdiv hk
  have hsrc : procs[root n p k]? = some procs[root n p k] := List.getElem?_eq_getElem hroot
  have hrow : ∀ j, j < n →
      (rowOf n (procs[root n p k]).local_mat (k % (n / p))).getD j 0 =
        (globalMat procs).getD (k * n + j) 0 := by
    intro j hj
    obtain ⟨pr, hpr, hval⟩ := globalMat_getD n p hn hp hdiv procs hwf k j hk hj
    have : pr = procs[root n p k] := by
      have h2 := hpr
      unfold root at hsrc
      rw [hsrc] at h2
      exact (Option.some.inj h2).symm
    rw [rowOf_getD _ _ _ _ hj, hval, this]
  refine ⟨rfl, ⟨procs[root n p k], hsrc, ?_⟩, _, Floyd_bcast_eq n p k procs hwf hb _ hsrc, ?_, ?_⟩
  · intro j hj
    rw [copyPivotRow_root n p k procs[root n p k] (hwf.2 _ (List.getElem_mem hroot)).2]
    exact hrow j hj
  · rw [List.length_map, hwf.1]
  · intro pr hpr
    obtain ⟨pr0, _, rfl⟩ := List.mem_map.1 hpr
    exact ⟨rowOf_length _ _ _, hrow⟩

theorem C8_pivot_row_broadcast_witness :
    root 4 2 2 = 2 / (4 / 2) ∧
    (∃ owner, (Floyd_init 4 (Read_matrix 4 2 exampleMatrix))[root 4 2 2]? = some owner ∧
      ∀ j, j < 4 →
        (copyPivotRow 4 2 2 (root 4 2 2) owner).row_int_city.getD j 0 =
          (globalMat (Floyd_init 4 (Read_matrix 4 2 exampleMatrix))).getD (2 * 4 + j) 0) ∧
    ∃ received, Floyd_bcast 4 2 2 (Floyd_init 4 (Read_matrix 4 2 exampleMatrix)) = some received ∧
      received.length = 2 ∧
      ∀ pr ∈ received,
        pr.row_int_city.length = 4 ∧
        ∀ j, j < 4 →
          pr.row_int_city.getD j 0 =
            (globalMat (Floyd_init 4 (Read_matrix 4 2 exampleMatrix))).getD (2 * 4 + j) 0 :=
  C8_pivot_row_broadcast 4 2 (by decide) (by decide) (by decide)
    (Floyd_init 4 (Read_matrix 4 2 exampleMatrix)) (by decide) 2 (by decide)

theorem min_le_fst (x y : Int) : FloydParallel.min x y ≤ x := by
  unfold FloydParallel.min
  split <;> omega

theorem min_le_snd (x y : Int) : FloydParallel.min x y ≤ y := by
  unfold FloydParallel.min
  split <;> omega

theorem le_min_of_le (z x y : Int) (hx : z ≤ x) (hy : z ≤ y) : z ≤ FloydParallel.min x y := by
  unfold FloydParallel.min
  split <;> omega

/-- A relaxed entry is never above the entry it replaces. -/
theorem relaxedEntry_le (n k : Nat) (row lm : List Int) (r j : Nat) :
    relaxedEntry n k row lm r j ≤ lm.getD (r * n + j) 0 := by
  unfold relaxedEntry
  exact min_le_fst _ _

/-- When the four values read lie in `[0, B]` and `2 * B` fits an `int`, the relaxed entry is
nonnegative. -/
theorem relaxedEntry_nonneg (n k : Nat) (row lm : List Int) (r j : Nat) (B : Int)
    (hB : 2 * B < 2147483648)
    (hx : 0 ≤ lm.getD (r * n + j) 0)
    (hc : 0 ≤ lm.getD (r * n + k) 0 ∧ lm.getD (r * n + k) 0 ≤ B)
    (hy : 0 ≤ row.getD j 0 ∧ row.getD j 0 ≤ B)
    (hd : 0 ≤ row.getD k 0 ∧ row.getD k 0 ≤ B) :
    0 ≤ relaxedEntry n k row lm r j := by
  have hpc : 0 ≤ pivotCol n k row lm r j ∧ pivotCol n k row lm r j ≤ B := by
    unfold pivotCol
    split
    · exact hc
    · refine ⟨le_min_of_le _ _ _ hc.1 ?_, le_trans (min_le_fst _ _) hc.2⟩
      rw [addInt_eq _ _ (by omega) (by omega)]
      omega
  unfold relaxedEntry
  apply le_min_of_le _ _ _ hx
  rw [addInt_eq _ _ (by omega) (by omega)]
  omega

theorem getD_in_range (B : Int) (l : List Int) (hB : 0 ≤ B) (h : AllInRange B l) (idx : Nat) :
    0 ≤ l.getD idx 0 ∧ l.getD idx 0 ≤ B := by
  by_cases hi : idx < l.length
  · exact h idx hi
  · rw [List.getD_eq_default _ _ (by omega)]
    exact ⟨le_refl _, hB⟩

theorem cell_of_lt (n b idx : Nat) (h : idx < b * n) : idx / n < b ∧ idx % n < n := by
  have hn : 0 < n := by
    rcases Nat.eq_zero_or_pos n with h0 | h0
    · subst h0; simp at h
    · exact h0
  exact ⟨Nat.div_lt_of_lt_mul (by rw [Nat.mul_comm]; exact h), Nat.mod_lt _ hn⟩

/-- After the relaxation of a block no value is above the value it had before. -/
theorem relax_le (n p k : Nat) (row lm : List Int) (hlen : lm.length = n / p * n)
    (idx : Nat) (hidx : idx < lm.length) :
    (relax n p k row lm).getD idx 0 ≤ lm.getD idx 0 := by
  rw [hlen] at hidx
  obtain ⟨hr, hj⟩ := cell_of_lt n (n / p) idx hidx
  rw [← cell_index n idx, (relax_spec n p k row lm hlen).2 _ _ hr hj]
  exact relaxedEntry_le n k row lm _ _

/-- The relaxation of a block with values in `[0, B]` against a pivot row with values in
`[0, B]` gives values in `[0, B]`, when `2 * B` fits an `int`. -/
theorem relax_in_range (n p k : Nat) (row lm : List Int) (B : Int) (hB0 : 0 ≤ B)
    (hB : 2 * B < 2147483648) (hlen : lm.length = n / p * n)
    (hlm : AllInRange B lm) (hrow : AllInRange B row) :
    AllInRange B (relax n p k row lm) := by
  intro idx hidx
  rw [(relax_spec n p k row lm hlen).1] at hidx
  have hle := relax_le n p k row lm hlen idx hidx
  have hold := hlm idx hidx
  refine ⟨?_, by omega⟩
  rw [hlen] at hidx
  obtain ⟨hr, hj⟩ := cell_of_lt n (n / p) idx hidx
  rw [← cell_index n idx, (relax_spec n p k row lm hlen).2 _ _ hr hj]
  exact relaxedEntry_nonneg n k row lm _ _ B hB (getD_in_range B lm hB0 hlm _).1
    (getD_in_range B lm hB0 hlm _) (getD_in_range B row hB0 hrow _)
    (getD_in_range B row hB0 hrow _)

/-! ## Bounds on the global matrix -/

theorem entry_globalStep_le (n k : Nat) (g : List Int) (i j : Nat) (hi : i < n) (hj : j < n) :
    entry n (globalStep n k g) i j ≤ entry n g i j := by
  rw [entry_globalStep n k g i j hi hj]
  exact relaxedEntry_le _ _ _ _ _ _

theorem globalStep_bounded (n k : Nat) (B : Int) (g : List Int) (hB : 2 * B < 2147483648)
    (hb : Bounded n B g) (hk : k < n) : Bounded n B (globalStep n k g) := by
  refine ⟨globalStep_length n k g, ?_⟩
  intro i hi j hj
  have hle := entry_globalStep_le n k g i j hi hj
  have hold := hb.2 i hi j hj
  refine ⟨?_, by omega⟩
  rw [entry_globalStep n k g i j hi hj]
  apply relaxedEntry_nonneg n k _ g i j B hB hold.1 (hb.2 i hi k hk)
  · rw [rowOf_getD n g k j hj]
    exact hb.2 k hk j hj
  · rw [rowOf_getD n g k k hk]
    exact hb.2 k hk k hk

theorem globalRounds_bounded (n : Nat) (B : Int) (g : List Int) (hB : 2 * B < 2147483648)
    (hb : Bounded n B g) (m : Nat) (hm : m ≤ n) : Bounded n B (globalRounds n m g) := by
  induction m with
  | zero => exact hb
  | succ m ih =>
    rw [globalRounds_succ]
    exact globalStep_bounded n m B _ hB (ih (by omega)) (by omega)

theorem globalRounds_le (n : Nat) (g : List Int) (m : Nat) (i j : Nat) (hi : i < n)
    (hj : j < n) : entry n (globalRounds n m g) i j ≤ entry n g i j := by
  induction m with
  | zero => exact le_refl _
  | succ m ih =>
    rw [globalRounds_succ]
    exact le_trans (entry_globalStep_le n m _ i j hi hj) ih

/-- A zero diagonal stays zero through the global steps on a matrix with entries in `[0, B]`,
when `2 * B` fits an `int`. -/
theorem globalRounds_diag (n : Nat) (B : Int) (g : List Int) (hB : 2 * B < 2147483648)
    (hb : Bounded n B g) (hdiag : ∀ i, i < n → entry n g i i = 0) (m : Nat) (hm : m ≤ n)
    (i : Nat) (hi : i < n) : entry n (globalRounds n m g) i i = 0 := by
  have h1 := globalRounds_le n g m i i hi hi
  have h2 := (globalRounds_bounded n B g hB hb m hm).2 i hi i hi
  have h3 := hdiag i hi
  omega

/-! ## Paths made of entries below `INFINITY` -/

/-- With nonnegative weights, a vertex sequence whose cost is below `INFINITY` is made only
of entries below `INFINITY`. -/
theorem finitePath_of_cost_lt (n : Nat) (w : Nat → Nat → Int)
    (hw : ∀ i, i < n → ∀ j, j < n → 0 ≤ w i j) (vs : List Nat) (hvs : ∀ v ∈ vs, v < n)
    (hc : seqCost w vs < INFINITY) : FinitePath w vs := by
  unfold FinitePath
  induction vs with
  | nil => exact List.chain'_nil
  | cons u rest ih =>
    cases rest with
    | nil => exact List.chain'_singleton u
    | cons v rest =>
      have hrest : ∀ x ∈ v :: rest, x < n := fun x hx => hvs x (List.mem_cons_of_mem _ hx)
      have h1 := hw u (hvs u (List.mem_cons_self _ _)) v (hrest v (List.mem_cons_self _ _))
      have h2 := seqCost_nonneg n w hw (v :: rest) hrest
      have e : seqCost w (u :: v :: rest) = w u v + seqCost w (v :: rest) := rfl
      rw [e] at hc
      exact List.chain'_cons.2 ⟨by omega, ih hrest (by omega)⟩

/-- Cutting the cycles out of a vertex sequence keeps it a chain for any relation on the
steps: there is a sequence without repeated vertices, with the same ends, through vertices of
the given one, whose steps are steps of the given one. -/
theorem exists_nodup_chain (R : Nat → Nat → Prop) (vs : List Nat) (hne : vs ≠ [])
    (hch : List.Chain' R vs) :
    ∃ vs2 : List Nat, vs2.Nodup ∧ vs2.head? = vs.head? ∧ vs2.getLast? = vs.getLast? ∧
      (∀ v ∈ vs2, v ∈ vs) ∧ List.Chain' R vs2 := by
  induction vs with
  | nil => exact absurd rfl hne
  | cons u rest ih =>
    cases rest with
    | nil => exact ⟨[u], List.nodup_singleton u, rfl, rfl, fun v hv => hv, hch⟩
    | cons v rest =>
      obtain ⟨huv, hch2⟩ := List.chain'_cons.1 hch
      obtain ⟨r2, hnd, hhead, hlast, hsub, hc2⟩ := ih (List.cons_ne_nil _ _) hch2
      by_cases hmem : u ∈ r2
      · obtain ⟨a, b, rfl⟩ := List.append_of_mem hmem
        refine ⟨u :: b, (List.nodup_append.1 hnd).2.1, rfl, ?_, ?_, hc2.right_of_append⟩
        · rw [List.getLast?_cons_cons, ← hlast, List.getLast?_append_cons]
        · intro x hx
          rcases List.mem_cons.1 hx with h | h
          · rw [h]; exact List.mem_cons_self _ _
          · exact List.mem_cons_of_mem _
              (hsub x (List.mem_append_right _ (List.mem_cons_of_mem _ h)))
      · obtain ⟨t, rfl⟩ := List.head?_eq_some_iff.1 (hhead.trans rfl)
        refine ⟨u :: v :: t, List.nodup_cons.2 ⟨hmem, hnd⟩, rfl, ?_, ?_,
          List.chain'_cons.2 ⟨huv, hc2⟩⟩
        · rw [List.getLast?_cons_cons, List.getLast?_cons_cons, hlast]
        · intro x hx
          rcases List.mem_cons.1 hx with h | h
          · rw [h]; exact List.mem_cons_self _ _
          · exact List.mem_cons_of_mem _ (hsub x h)

/-- The simple paths of the two-vertex matrix `[0, 5, INFINITY, 0]` that are made of entries
below `INFINITY` cost less than `INFINITY`. -/
theorem two_vertex_simple_paths (vs : List Nat) (hnd : vs.Nodup) (hvs : ∀ v ∈ vs, v < 2)
    (hfin : FinitePath (entry 2 [0, 5, 1000000, 0]) vs) :
    seqCost (entry 2 [0, 5, 1000000, 0]) vs < INFINITY := by
  match vs, hnd, hvs, hfin with
  | [], _, _, _ => decide
  | [a], _, _, _ =>
    have e : seqCost (entry 2 [0, 5, 1000000, 0]) [a] = 0 := rfl
    rw [e]
    decide
  | [a, b], _, _, hfin =>
    have hfin2 : entry 2 [0, 5, 1000000, 0] a b < INFINITY :=
      (List.chain'_cons.1 hfin).1
    have e : seqCost (entry 2 [0, 5, 1000000, 0]) [a, b]
        = entry 2 [0, 5, 1000000, 0] a b + 0 := rfl
    rw [e]
    omega
  | a :: b :: c :: rest, hnd, hvs, _ =>
    have ha : a < 2 := hvs a (List.mem_cons_self _ _)
    have hb : b < 2 := hvs b (List.mem_cons_of_mem _ (List.mem_cons_self _ _))
    have hc : c < 2 :=
      hvs c (List.mem_cons_of_mem _ (List.mem_cons_of_mem _ (List.mem_cons_self _ _)))
    have h1 := List.nodup_cons.1 hnd
    have h2 := List.nodup_cons.1 h1.2
    have hab : a ≠ b := fun h => h1.1 (h ▸ List.mem_cons_self _ _)
    have hac : a ≠ c := fun h => h1.1 (h ▸ List.mem_cons_of_mem _ (List.mem_cons_self _ _))
    have hbc : b ≠ c := fun h => h2.1 (h ▸ List.mem_cons_self _ _)
    omega

/-! ## A round that keeps the pivot's row and column -/

theorem min_eq_fst (x s : Int) (h : x ≤ s) : FloydParallel.min x s = x := by
  unfold FloydParallel.min
  split <;> omega

/-- When adding the pivot's diagonal entry to an entry of column `k` or of row `k` neither
lowers it nor overflows, the global step is the simultaneous relaxation and it keeps column
`k` and row `k`. -/
theorem globalStep_keeps_pivot (n k : Nat) (g : List Int) (hk : k < n)
    (hkk : 0 ≤ entry n g k k)
    (hcol : ∀ i, i < n →
      -2147483648 ≤ entry n g i k ∧ entry n g i k + entry n g k k < 2147483648)
    (hrow : ∀ j, j < n →
      -2147483648 ≤ entry n g k j ∧ entry n g k k + entry n g k j < 2147483648) :
    (∀ i, i < n → entry n (globalStep n k g) i k = entry n g i k) ∧
    (∀ j, j < n → entry n (globalStep n k g) k j = entry n g k j) ∧
    (∀ i, i < n → ∀ j, j < n →
      entry n (globalStep n k g) i j =
        min (entry n g i j) (addInt (entry n g i k) (entry n g k j))) := by
  have hsim : ∀ i, i < n → ∀ j, j < n →
      entry n (globalStep n k g) i j =
        min (entry n g i j) (addInt (entry n g i k) (entry n g k j)) := by
    intro i hi j hj
    rw [entry_globalStep n k g i j hi hj]
    unfold relaxedEntry pivotCol
    rw [rowOf_getD n g k j hj, rowOf_getD n g k k hk]
    have h := hcol i hi
    unfold entry at h hkk ⊢
    have hpc : min (g.getD (i * n + k) 0)
        (addInt (g.getD (i * n + k) 0) (g.getD (k * n + k) 0)) = g.getD (i * n + k) 0 :=
      min_eq_fst _ _ (by rw [addInt_eq _ _ (by omega) (by omega)]; omega)
    rw [hpc, ite_self]
  refine ⟨?_, ?_, hsim⟩
  · intro i hi
    rw [hsim i hi k hk]
    have h := hcol i hi
    exact min_eq_fst _ _ (by rw [addInt_eq _ _ (by omega) (by omega)]; omega)
  · intro j hj
    rw [hsim k hk j hj]
    have h := hrow j hj
    exact min_eq_fst _ _ (by rw [addInt_eq _ _ (by omega) (by omega)]; omega)

/-! ## The subscripts as the program computes them -/

theorem wrapInt_natCast (m : Nat) (h : m < 2147483648) : wrapInt (m : Int) = (m : Int) :=
  wrapInt_eq _ (by omega) (by omega)

theorem mulInt_natCast (a b : Nat) (h : a * b < 2147483648) :
    mulInt (a : Int) (b : Int) = ((a * b : Nat) : Int) := by
  unfold mulInt
  rw [← Nat.cast_mul]
  exact wrapInt_natCast _ h

theorem addInt_natCast (a b : Nat) (h : a + b < 2147483648) :
    addInt (a : Int) (b : Int) = ((a + b : Nat) : Int) := by
  unfold addInt
  rw [← Nat.cast_add]
  exact wrapInt_natCast _ h

theorem divInt_natCast (a b : Nat) (h : a < 2147483648) :
    divInt (a : Int) (b : Int) = ((a / b : Nat) : Int) := by
  unfold divInt
  rw [← Int.ofNat_tdiv]
  exact wrapInt_natCast _ (lt_of_le_of_lt (Nat.div_le_self a b) h)

theorem modInt_natCast (a b : Nat) (h : a < 2147483648) :
    modInt (a : Int) (b : Int) = ((a % b : Nat) : Int) := by
  unfold modInt
  rw [← Int.ofNat_tmod]
  exact wrapInt_natCast _ (lt_of_le_of_lt (Nat.mod_le a b) h)

theorem sq_lt_of_le (n : Nat) (h : n ≤ 46340) : n * n < 2147483648 :=
  lt_of_le_of_lt (Nat.mul_le_mul h h) (by decide)

theorem subscriptInt_natCast (r n j : Nat) (h : r * n + j < 2147483648) :
    subscriptInt (r : Int) (n : Int) (j : Int) = ((r * n + j : Nat) : Int) := by
  unfold subscriptInt
  rw [mulInt_natCast r n (by omega), addInt_natCast _ _ h]

/-! ## A run that violates the divisibility precondition -/

/-- For `n = 3` and `p = 2` the rounds for the pivots `0` and `1` go on, on every input, and
the broadcast for the pivot `2` stops the program. -/
theorem rounds_three_two (input : List Int) :
    (∃ procs, Floyd_rounds 3 2 2 (Read_matrix 3 2 input) = some procs ∧ procs.length = 2 ∧
      Floyd_bcast 3 2 2 procs = none) ∧
    Floyd_rounds 3 2 3 (Read_matrix 3 2 input) = none := by
  have hlen0 : (Floyd_init 3 (Read_matrix 3 2 input)).length = 2 := by
    unfold Floyd_init Read_matrix
    rw [List.length_map, MPI_Scatter_length]
  have h0 : Floyd_rounds 3 2 0 (Read_matrix 3 2 input)
      = some (Floyd_init 3 (Read_matrix 3 2 input)) := rfl
  obtain ⟨procs1, hp1⟩ := Floyd_iter_isSome 3 2 0 (Floyd_init 3 (Read_matrix 3 2 input))
    (by decide) (by rw [hlen0]; decide)
  have hlen1 : procs1.length = 2 := by rw [Floyd_iter_length 3 2 0 _ _ hp1, hlen0]
  obtain ⟨procs2, hp2⟩ := Floyd_iter_isSome 3 2 1 procs1 (by decide) (by rw [hlen1]; decide)
  have hlen2 : procs2.length = 2 := by rw [Floyd_iter_length 3 2 1 _ _ hp2, hlen1]
  have h1 : Floyd_rounds 3 2 1 (Read_matrix 3 2 input) = some procs1 := by
    rw [Floyd_rounds_succ, h0]
    exact hp1
  have h2 : Floyd_rounds 3 2 2 (Read_matrix 3 2 input) = some procs2 := by
    rw [Floyd_rounds_succ, h1]
    exact hp2
  have hb : Floyd_bcast 3 2 2 procs2 = none :=
    Floyd_bcast_invalid_root 3 2 2 procs2 (by rw [hlen2]; decide)
  refine ⟨⟨procs2, h2, hlen2, hb⟩, ?_⟩
  rw [Floyd_rounds_succ, h2]
  show Floyd_iter 3 2 2 procs2 = none
  unfold Floyd_iter
  rw [hb]
  rfl

/-- C12: for `n = 4` and the example matrix (rows `[0, 2, INF, INF]`, `[INF, 0, 3, INF]`,
`[INF, INF, 0, 1]`, `[INF, INF, INF, 0]` with `INF = 1000000`), for each `p` in `{1, 2, 4}` the
program returns an output with `dist(0,3) = 6` and `dist(0,2) = 5`, and it is `[0, 2, 5, 6]`,
`[INF, 0, 3, 4]`, `[INF, INF, 0, 1]`, `[INF, INF, INF, 0]`: every pair with no path stays
`1000000`. -/
theorem C12_example_scenario :
    INFINITY = 1000000 ∧
    exampleMatrix =
      [0, 2, INFINITY, INFINITY,
       INFINITY, 0, 3, INFINITY,
       INFINITY, INFINITY, 0, 1,
       INFINITY, INFINITY, INFINITY, 0] ∧
    ∀ p ∈ [1, 2, 4],
      (run 4 p exampleMatrix).map (fun out => entry 4 out 0 3) = some 6 ∧
      (run 4 p exampleMatrix).map (fun out => entry 4 out 0 2) = some 5 ∧
      run 4 p exampleMatrix =
        some [0, 2, 5, 6,
              INFINITY, 0, 3, 4,
              INFINITY, INFINITY, 0, 1,
              INFINITY, INFINITY, INFINITY, 0] := by
  decide

/-- C13: for `n = 1` and `p = 1`, on an input of one value with a zero diagonal, the program
returns the `1 × 1` matrix `[0]`. -/
theorem C13_single_vertex (input : List Int) (hlen : input.length = 1)
    (hdiag : entry 1 input 0 0 = 0) : run 1 1 input = some [0] := by
  match input, hlen, hdiag with
  | [x], _, hdiag =>
    have hx : x = 0 := hdiag
    subst hx
    decide

theorem C13_single_vertex_witness : run 1 1 [0] = some [0] :=
  C13_single_vertex [0] (by decide) (by decide)

/-- C15: with `INFINITY = 1000000` and 32-bit `int` addition, for all `x`, `y` in
`[0, 1000000]` the sum computed in the relaxation is the integer sum, nonnegative and at most
`2000000 < 2^31`; and when `x` or `y` is `1000000`, `min(c, x + y) = c` for every
`c ≤ 1000000`. -/
theorem C15_sentinel_arithmetic (x y : Int) (hx : 0 ≤ x ∧ x ≤ 1000000)
    (hy : 0 ≤ y ∧ y ≤ 1000000) :
    INFINITY = 1000000 ∧ addInt x y = x + y ∧ 0 ≤ addInt x y ∧ addInt x y ≤ 2000000 ∧
    (2000000 : Int) < 2 ^ 31 ∧
    (x = INFINITY ∨ y = INFINITY → ∀ c : Int, c ≤ INFINITY → min c (addInt x y) = c) := by
  have hadd : addInt x y = x + y := addInt_eq x y (by omega) (by omega)
  refine ⟨rfl, hadd, by omega, by omega, by norm_num, ?_⟩
  intro hxy c hc
  apply min_eq_fst
  unfold INFINITY at hxy hc
  omega

theorem C15_sentinel_arithmetic_witness :
    INFINITY = 1000000 ∧ addInt 1000000 1000000 = 1000000 + 1000000 ∧
    0 ≤ addInt 1000000 1000000 ∧ addInt 1000000 1000000 ≤ 2000000 ∧
    (2000000 : Int) < 2 ^ 31 ∧
    ((1000000 : Int) = INFINITY ∨ (1000000 : Int) = INFINITY →
      ∀ c : Int, c ≤ INFINITY → min c (addInt 1000000 1000000) = c) :=
  C15_sentinel_arithmetic 1000000 1000000 (by decide) (by decide)

/-- C18 fails as stated: for `n = 46341` and `p = 1` (`p` divides `n`), local row
`r = 46340 < n/p` and column `j = 46340 < n`, the `int` size `n*n/p` that the program computes
is `-2147479015`, not the number `(n/p)*n` of values of a block, and the `int` subscript
`r*n + j` is `-2147479016`, below zero: `n*n` does not fit an `int`. -/
theorem C18_counterexample :
    1 ≤ 46341 ∧ 1 ≤ 1 ∧ 1 ∣ 46341 ∧ 46340 < 46341 / 1 ∧ 46340 < 46341 ∧
    blockCountInt 46341 1 = -2147479015 ∧
    blockCountInt 46341 1 ≠ ((46341 / 1 * 46341 : Nat) : Int) ∧
    subscriptInt 46340 46341 46340 = -2147479016 ∧
    ¬ 0 ≤ subscriptInt 46340 46341 46340 := by
  decide

/-- C18, amended: for `1 ≤ n ≤ 46340` (so that `n*n` fits an `int`) and `p ≥ 1` dividing `n`,
the block size `n/p` is at least 1, and for every pivot `k < n`, local row `r < n/p` and
column `j < n`: the owner `k / (n/p)` is below `p`, and the offsets `(k % (n/p))*n + j`,
`r*n + j` and `r*n + k` are below `n*n/p = (n/p)*n`, the length of every local block; `j` is
within `row_int_city`; and the `int` values that the program computes for the size, the owner,
the local pivot row and the three subscripts are these numbers. -/
theorem C18_index_safety (n p : Nat) (hn : 1 ≤ n) (hmax : n ≤ 46340) (hp : 1 ≤ p)
    (hdiv : p ∣ n) (k r j : Nat) (hk : k < n) (hr : r < n / p) (hj : j < n) :
    1 ≤ n / p ∧ root n p k < p ∧ n * n / p = n / p * n ∧
    k % (n / p) * n + j < n * n / p ∧ r * n + j < n * n / p ∧ r * n + k < n * n / p ∧
    (∀ input : List Int, input.length = n * n →
      ∀ pr ∈ Floyd_init n (Read_matrix n p input),
        pr.local_mat.length = n * n / p ∧ pr.row_int_city.length = n ∧
        j < pr.row_int_city.length) ∧
    blockCountInt n p = ((n * n / p : Nat) : Int) ∧
    rootInt n p k = ((root n p k : Nat) : Int) ∧
    localPivotInt n p k = ((k % (n / p) : Nat) : Int) ∧
    subscriptInt (localPivotInt n p k) n j = ((k % (n / p) * n + j : Nat) : Int) ∧
    subscriptInt r n j = ((r * n + j : Nat) : Int) ∧
    subscriptInt r n k = ((r * n + k : Nat) : Int) := by
  have hb := block_size_pos n p hn hp hdiv
  have hcnt := count_eq n p hdiv
  have h1 := row_end_le (k % (n / p)) (n / p) n (Nat.mod_lt _ hb)
  have h2 := row_end_le r (n / p) n hr
  have hsq := sq_lt_of_le n hmax
  have hle : n * n / p ≤ n * n := Nat.div_le_self _ _
  have hpiv : localPivotInt n p k = ((k % (n / p) : Nat) : Int) := by
    unfold localPivotInt
    rw [divInt_natCast n p (by omega), modInt_natCast k (n / p) (by omega)]
  refine ⟨hb, root_lt n p k hdiv hk, hcnt, by omega, by omega, by omega, ?_, ?_, ?_, hpiv,
    ?_, ?_, ?_⟩
  · intro input hlen pr hpr
    have hwf := (Read_matrix_wf n p hdiv input hlen).2 pr hpr
    exact ⟨by rw [hcnt]; exact hwf.1, hwf.2, by rw [hwf.2]; exact hj⟩
  · unfold blockCountInt
    rw [mulInt_natCast n n hsq, divInt_natCast (n * n) p hsq]
  · unfold rootInt root
    rw [divInt_natCast n p (by omega), divInt_natCast k (n / p) (by omega)]
  · rw [hpiv]
    exact subscriptInt_natCast _ n j (by omega)
  · exact subscriptInt_natCast r n j (by omega)
  · exact subscriptInt_natCast r n k (by omega)

theorem C18_index_safety_witness :
    1 ≤ 4 / 2 ∧ root 4 2 3 < 2 ∧ 4 * 4 / 2 = 4 / 2 * 4 ∧
    3 % (4 / 2) * 4 + 3 < 4 * 4 / 2 ∧ 1 * 4 + 3 < 4 * 4 / 2 ∧ 1 * 4 + 3 < 4 * 4 / 2 ∧
    (∀ input : List Int, input.length = 4 * 4 →
      ∀ pr ∈ Floyd_init 4 (Read_matrix 4 2 input),
        pr.local_mat.length = 4 * 4 / 2 ∧ pr.row_int_city.length = 4 ∧
        3 < pr.row_int_city.length) ∧
    blockCountInt (4 : Nat) (2 : Nat) = ((4 * 4 / 2 : Nat) : Int) ∧
    rootInt (4 : Nat) (2 : Nat) (3 : Nat) = ((root 4 2 3 : Nat) : Int) ∧
    localPivotInt (4 : Nat) (2 : Nat) (3 : Nat) = ((3 % (4 / 2) : Nat) : Int) ∧
    subscriptInt (localPivotInt (4 : Nat) (2 : Nat) (3 : Nat)) (4 : Nat) (3 : Nat)
      = ((3 % (4 / 2) * 4 + 3 : Nat) : Int) ∧
    subscriptInt (1 : Nat) (4 : Nat) (3 : Nat) = ((1 * 4 + 3 : Nat) : Int) ∧
    subscriptInt (1 : Nat) (4 : Nat) (3 : Nat) = ((1 * 4 + 3 : Nat) : Int) :=
  C18_index_safety 4 2 (by decide) (by decide) (by decide) (by decide) 3 1 3 (by decide)
    (by decide) (by decide)

/-- C19 fails as stated: with `n = 2`, `p = 1`, pivot `k = 0` and the block
`[1, 0, 2147483647, 0]`, global entry `(0, 0)` is `1 ≥ 0`, and the round changes the entry
`(1, 0)` of column `0` from `2147483647` to `-2147483648`: the `int` sum `2147483647 + 1`
wraps around. -/
theorem C19_counterexample :
    1 ∣ 2 ∧ 0 < 2 ∧ WellFormed 2 1 (Floyd_init 2 [[1, 0, 2147483647, 0]]) ∧
    0 ≤ entry 2 (globalMat (Floyd_init 2 [[1, 0, 2147483647, 0]])) 0 0 ∧
    entry 2 (globalMat (Floyd_init 2 [[1, 0, 2147483647, 0]])) 1 0 = 2147483647 ∧
    (Floyd_iter 2 1 0 (Floyd_init 2 [[1, 0, 2147483647, 0]])).map
        (fun procs => entry 2 (globalMat procs) 1 0) = some (-2147483648) := by
  decide

/-- C19, amended: for `n ≥ 1`, `p` dividing `n`, `k < n` and every well-formed state of the
ranks in which global entry `(k, k)` is nonnegative and adding it to an entry of column `k` or
of row `k` stays in the `int` range (as when it is `0`), the round for the pivot `k` runs and
leaves global column `k` and global row `k` unchanged, and every entry `(i, j)` becomes
`min(g[i][j], g[i][k] + g[k][j])` of the matrix `g` from before the round, as in a
simultaneous update. -/
theorem C19_pivot_row_column_kept (n p : Nat) (hn : 1 ≤ n) (hdiv : p ∣ n)
    (procs : List Proc) (hwf : WellFormed n p procs) (k : Nat) (hk : k < n)
    (hkk : 0 ≤ entry n (globalMat procs) k k)
    (hcol : ∀ i, i < n → -2147483648 ≤ entry n (globalMat procs) i k ∧
      entry n (globalMat procs) i k + entry n (globalMat procs) k k < 2147483648)
    (hrow : ∀ j, j < n → -2147483648 ≤ entry n (globalMat procs) k j ∧
      entry n (globalMat procs) k k + entry n (globalMat procs) k j < 2147483648) :
    ∃ procs2, Floyd_iter n p k procs = some procs2 ∧
    (∀ i, i < n → entry n (globalMat procs2) i k = entry n (globalMat procs) i k) ∧
    (∀ j, j < n → entry n (globalMat procs2) k j = entry n (globalMat procs) k j) ∧
    (∀ i, i < n → ∀ j, j < n →
      entry n (globalMat procs2) i j =
        min (entry n (globalMat procs) i j)
          (addInt (entry n (globalMat procs) i k) (entry n (globalMat procs) k j))) := by
  obtain ⟨procs2, hrun, _, hglob⟩ := Floyd_iter_global n p k hdiv hk procs hwf
  refine ⟨procs2, hrun, ?_⟩
  rw [hglob]
  exact globalStep_keeps_pivot n k (globalMat procs) hk hkk hcol hrow

theorem C19_pivot_row_column_kept_witness :
    ∃ procs2, Floyd_iter 4 2 1 (Floyd_init 4 (Read_matrix 4 2 exampleMatrix)) = some procs2 ∧
    (∀ i, i < 4 → entry 4 (globalMat procs2) i 1
        = entry 4 (globalMat (Floyd_init 4 (Read_matrix 4 2 exampleMatrix))) i 1) ∧
    (∀ j, j < 4 → entry 4 (globalMat procs2) 1 j
        = entry 4 (globalMat (Floyd_init 4 (Read_matrix 4 2 exampleMatrix))) 1 j) ∧
    (∀ i, i < 4 → ∀ j, j < 4 →
      entry 4 (globalMat procs2) i j
        = min (entry 4 (globalMat (Floyd_init 4 (Read_matrix 4 2 exampleMatrix))) i j)
          (addInt (entry 4 (globalMat (Floyd_init 4 (Read_matrix 4 2 exampleMatrix))) i 1)
            (entry 4 (globalMat (Floyd_init 4 (Read_matrix 4 2 exampleMatrix))) 1 j))) :=
  C19_pivot_row_column_kept 4 2 (by decide) (by decide)
    (Floyd_init 4 (Read_matrix 4 2 exampleMatrix)) (by decide) 1 (by decide) (by decide)
    (by decide) (by decide)

end FloydParallel
